import Mathlib

/-!
Verification model of the pumpduler pub/sub server.

This file shallowly embeds the parts of the source that the checked
properties talk about:

* `pumpduler/parsers.py` (class `JSON`) together with the behaviour of
  Python's `json.dumps` / `json.loads` (default options: `ensure_ascii`,
  separators `", "` and `": "`), and `pumpduler/message.py`
  (`PumpdulerMessage.dump` / `load` and frame splitting on the
  terminator byte `0x0A`);
* `pumpduler/time_event_manager.py` (`_update_executor`, `add_event`,
  `_broadcast`) with `pumpduler/time_event_executor.py`'s executor state;
* `pumpduler/channel.py`, `pumpduler/channel_manager.py`,
  `pumpduler/client.py` (`process_message` dispatch) and
  `pumpduler/client_manager.py` (`_handle` loop scopes, `add_client`,
  `_remove_client`).

Modelling conventions: bytes of a frame are `List Char` (every encoded
byte is ASCII thanks to `ensure_ascii`); JSON numbers are modelled as
integers (float formatting is out of scope); strings are modelled over
Lean's `Char` (unicode scalar values), and the codec theorems restrict
to characters below `0x10000` because the model does not recombine the
surrogate-pair escapes `json.dumps` emits above that; client sessions
are identified by natural numbers; socket sends that the claims do not
make fail are modelled as succeeding.
-/

/-! ## JSON values

A decoded JSON value as `json.loads` produces it, with numbers
restricted to integers. Arrays and objects are mutual inductives so
that every function below is structural (hence kernel-reducible). -/

mutual
inductive JVal : Type where
  | null : JVal
  | bool (b : Bool) : JVal
  | int (n : Int) : JVal
  | str (s : List Char) : JVal
  | arr (xs : JArr) : JVal
  | obj (ms : JObj) : JVal
inductive JArr : Type where
  | nil : JArr
  | cons (hd : JVal) (tl : JArr) : JArr
inductive JObj : Type where
  | nil : JObj
  | cons (k : List Char) (v : JVal) (tl : JObj) : JObj
end

/-- The opening-brace byte of a JSON object. -/
def obrace : Char := '\x7b'

/-- The closing-brace byte of a JSON object. -/
def cbrace : Char := '\x7d'

/-! ## Encoder: `json.dumps(value).encode("utf-8")` (`JSON.encode`) -/

/-- Decimal digit character, `48 + d` is the code of the digit `d`. -/
def digitChar (d : Nat) : Char := Char.ofNat (48 + d)

/-- Decimal digits of `n`, most significant first; the first argument is
fuel that makes recursion structural (`fuel ≥ n` suffices). -/
def encNatCore : Nat → Nat → List Char
  | _, 0 => []
  | 0, _ + 1 => []
  | f + 1, n + 1 => encNatCore f ((n + 1) / 10) ++ [digitChar ((n + 1) % 10)]

/-- Decimal representation of a natural number, as Python's `str`. -/
def encNat (n : Nat) : List Char := if n = 0 then ['0'] else encNatCore n n

/-- Decimal representation of an integer, as Python's `str` on `int`. -/
def encInt : Int → List Char
  | .ofNat n => encNat n
  | .negSucc m => '-' :: encNat (m + 1)

/-- Lowercase hexadecimal digit character (Python formats `\uXXXX`
escapes with lowercase hex). -/
def hexDigitChar (d : Nat) : Char :=
  if d < 10 then Char.ofNat (48 + d) else Char.ofNat (87 + d)

/-- The escape `\uXXXX` for a code point below `0x10000`. -/
def uEsc (n : Nat) : List Char :=
  ['\\', 'u', hexDigitChar (n / 4096 % 16), hexDigitChar (n / 256 % 16),
    hexDigitChar (n / 16 % 16), hexDigitChar (n % 16)]

/-- How `json.dumps` (with `ensure_ascii=True`) renders one character of
a string: printable ASCII other than `"` and `\` is kept, the short
escapes are used where they exist, every other code point below
`0x10000` becomes `\uXXXX`, and larger ones a surrogate pair. -/
def escChar (c : Char) : List Char :=
  if c = '"' then ['\\', '"']
  else if c = '\\' then ['\\', '\\']
  else if c = '\n' then ['\\', 'n']
  else if c = '\r' then ['\\', 'r']
  else if c = '\t' then ['\\', 't']
  else if c.toNat = 8 then ['\\', 'b']
  else if c.toNat = 12 then ['\\', 'f']
  else if c.toNat < 32 then uEsc c.toNat
  else if c.toNat < 127 then [c]
  else if c.toNat < 65536 then uEsc c.toNat
  else uEsc (55296 + (c.toNat - 65536) / 1024) ++ uEsc (56320 + (c.toNat - 65536) % 1024)

/-- Escaped body of a JSON string. -/
def escStr : List Char → List Char
  | [] => []
  | c :: cs => escChar c ++ escStr cs

/-- A JSON string literal: quote, escaped body, quote. -/
def encStr (s : List Char) : List Char := '"' :: (escStr s ++ ['"'])

/-- Keyword bytes for `null`. -/
def litNull : List Char := ['n', 'u', 'l', 'l']

/-- Keyword bytes for `true`. -/
def litTrue : List Char := ['t', 'r', 'u', 'e']

/-- Keyword bytes for `false`. -/
def litFalse : List Char := ['f', 'a', 'l', 's', 'e']

mutual
/-- `json.dumps` with the default separators `", "` and `": "`. -/
def encodeVal : JVal → List Char
  | .null => litNull
  | .bool true => litTrue
  | .bool false => litFalse
  | .int n => encInt n
  | .str s => encStr s
  | .arr .nil => ['[', ']']
  | .arr (.cons v tl) => '[' :: (encodeVal v ++ encSepItems tl) ++ [']']
  | .obj .nil => [obrace, cbrace]
  | .obj (.cons k v tl) =>
      obrace :: (encStr k ++ ':' :: ' ' :: encodeVal v ++ encSepPairs tl) ++ [cbrace]
/-- Items of an array after the first, each preceded by `", "`. -/
def encSepItems : JArr → List Char
  | .nil => []
  | .cons v tl => ',' :: ' ' :: (encodeVal v ++ encSepItems tl)
/-- Members of an object after the first, each preceded by `", "`. -/
def encSepPairs : JObj → List Char
  | .nil => []
  | .cons k v tl => ',' :: ' ' :: (encStr k ++ ':' :: ' ' :: encodeVal v ++ encSepPairs tl)
end

/-! ## Decoder: `json.loads` (`JSON.decode`), on the modelled grammar -/

/-- Whitespace as skipped by `json.loads` (space, tab, newline, return). -/
def jIsWs (c : Char) : Bool := c.toNat = 32 || c.toNat = 9 || c.toNat = 10 || c.toNat = 13

/-- Drop leading JSON whitespace. -/
def jSkipWs : List Char → List Char
  | [] => []
  | c :: cs => if jIsWs c then jSkipWs cs else c :: cs

/-- Decimal digit test on characters. -/
def jIsDigit (c : Char) : Bool := 48 ≤ c.toNat && c.toNat ≤ 57

/-- Value of a decimal digit character. -/
def digitVal (c : Char) : Nat := c.toNat - 48

/-- Consume a run of decimal digits, accumulating their value onto `a`. -/
def parseDigitsAux (a : Nat) : List Char → Nat × List Char
  | [] => (a, [])
  | c :: cs => if jIsDigit c then parseDigitsAux (a * 10 + digitVal c) cs else (a, c :: cs)

/-- Parse one unsigned JSON integer token: `0`, or a nonzero digit
followed by more digits (`json`'s number regex stops right after a
leading `0`). -/
def parseUInt : List Char → Option (Nat × List Char)
  | [] => none
  | c :: cs =>
    if c = '0' then some (0, cs)
    else if jIsDigit c then some (parseDigitsAux (digitVal c) cs) else none

/-- After an integer token a fraction or exponent would make the number
a float, which the model does not cover; reject it. -/
def numEndOk : List Char → Bool
  | [] => true
  | c :: _ => !(c = '.' || c = 'e' || c = 'E')

/-- Parse a JSON integer (optional minus sign, then an unsigned token). -/
def parseNum : List Char → Option (Int × List Char)
  | [] => none
  | c :: cs =>
    if c = '-' then
      match parseUInt cs with
      | some (n, r) => if numEndOk r then some (-(n : Int), r) else none
      | none => none
    else
      match parseUInt (c :: cs) with
      | some (n, r) => if numEndOk r then some ((n : Int), r) else none
      | none => none

/-- Value of a hexadecimal digit character, either case. -/
def hexVal (c : Char) : Option Nat :=
  if 48 ≤ c.toNat && c.toNat ≤ 57 then some (c.toNat - 48)
  else if 97 ≤ c.toNat && c.toNat ≤ 102 then some (c.toNat - 87)
  else if 65 ≤ c.toNat && c.toNat ≤ 70 then some (c.toNat - 55)
  else none

/-- Prepend a character to the string part of a parser result. -/
def mapCons (c : Char) : Option (List Char × List Char) → Option (List Char × List Char)
  | some (s, r) => some (c :: s, r)
  | none => none

/-- Parse the body of a JSON string after the opening quote, up to and
including the closing quote, handling the escapes `json.loads` accepts.
Raw control characters are rejected (strict mode); `\uXXXX` escapes in
the surrogate range are out of the model. -/
def parseStrBody : List Char → Option (List Char × List Char)
  | [] => none
  | c :: cs =>
    if c = '"' then some ([], cs)
    else if c = '\\' then
      match cs with
      | [] => none
      | e :: cs₂ =>
        if e = '"' then mapCons '"' (parseStrBody cs₂)
        else if e = '\\' then mapCons '\\' (parseStrBody cs₂)
        else if e = '/' then mapCons '/' (parseStrBody cs₂)
        else if e = 'n' then mapCons '\n' (parseStrBody cs₂)
        else if e = 'r' then mapCons '\r' (parseStrBody cs₂)
        else if e = 't' then mapCons '\t' (parseStrBody cs₂)
        else if e = 'b' then mapCons (Char.ofNat 8) (parseStrBody cs₂)
        else if e = 'f' then mapCons (Char.ofNat 12) (parseStrBody cs₂)
        else if e = 'u' then
          match cs₂ with
          | h₁ :: h₂ :: h₃ :: h₄ :: cs₃ =>
            match hexVal h₁, hexVal h₂, hexVal h₃, hexVal h₄ with
            | some a, some b, some c₀, some d =>
              let n := ((a * 16 + b) * 16 + c₀) * 16 + d
              if n < 55296 || 57344 ≤ n then mapCons (Char.ofNat n) (parseStrBody cs₃)
              else none
            | _, _, _, _ => none
          | _ => none
        else none
    else if c.toNat < 32 then none
    else mapCons c (parseStrBody cs)

/-- Consume an expected literal tail (such as `ull` after `n`). -/
def takeLit : List Char → List Char → Option (List Char)
  | [], l => some l
  | _ :: _, [] => none
  | c :: cs, x :: xs => if x = c then takeLit cs xs else none

/-- Option bind, written out so proofs can rewrite it step by step. -/
def pbind {α β : Type} (o : Option α) (g : α → Option β) : Option β :=
  match o with
  | none => none
  | some a => g a

/-- After one array element: a `]` closes the array, a `,` continues
with the rest of the elements (`rec` is the continuation). -/
def itemsAfter (rec : List Char → Option (JArr × List Char)) (v : JVal) :
    List Char → Option (JArr × List Char)
  | [] => none
  | c :: r₂ =>
    if c = ']' then some (.cons v .nil, r₂)
    else if c = ',' then (rec r₂).map (fun p => (JArr.cons v p.1, p.2))
    else none

/-- After one object member: a closing brace ends the object, a `,`
continues with the rest of the members. -/
def pairsEnd (recP : List Char → Option (JObj × List Char)) (k : List Char) (v : JVal) :
    List Char → Option (JObj × List Char)
  | [] => none
  | c :: r₄ =>
    if c = ',' then (recP r₄).map (fun p => (JObj.cons k v p.1, p.2))
    else if c = cbrace then some (.cons k v .nil, r₄)
    else none

/-- After an object key: expect a colon, then a value, then `pairsEnd`. -/
def pairsColon (recV : List Char → Option (JVal × List Char))
    (recP : List Char → Option (JObj × List Char)) (k : List Char) :
    List Char → Option (JObj × List Char)
  | ':' :: r₂ => pbind (recV r₂) (fun vr => pairsEnd recP k vr.1 (jSkipWs vr.2))
  | _ => none

mutual
/-- Parse one JSON value (fuel-indexed so the recursion is structural). -/
def parseV : Nat → List Char → Option (JVal × List Char)
  | 0, _ => none
  | f + 1, l =>
    match jSkipWs l with
    | [] => none
    | c :: cs =>
      if c = 'n' then (takeLit ['u', 'l', 'l'] cs).map (fun r => (.null, r))
      else if c = 't' then (takeLit ['r', 'u', 'e'] cs).map (fun r => (.bool true, r))
      else if c = 'f' then (takeLit ['a', 'l', 's', 'e'] cs).map (fun r => (.bool false, r))
      else if c = '"' then (parseStrBody cs).map (fun p => (.str p.1, p.2))
      else if c = '[' then
        match jSkipWs cs with
        | ']' :: r => some (.arr .nil, r)
        | l₂ => (parseItems f l₂).map (fun p => (.arr p.1, p.2))
      else if c = obrace then
        match jSkipWs cs with
        | [] => none
        | c₂ :: r =>
          if c₂ = cbrace then some (.obj .nil, r)
          else (parsePairs f (c₂ :: r)).map (fun p => (.obj p.1, p.2))
      else if c = '-' || jIsDigit c then (parseNum (c :: cs)).map (fun p => (.int p.1, p.2))
      else none
/-- Parse the elements of a nonempty array body up to the closing `]`. -/
def parseItems : Nat → List Char → Option (JArr × List Char)
  | 0, _ => none
  | f + 1, l =>
    pbind (parseV f l) (fun vr =>
      itemsAfter (fun r₂ => parseItems f r₂) vr.1 (jSkipWs vr.2))
/-- Parse the members of a nonempty object body up to the closing brace. -/
def parsePairs : Nat → List Char → Option (JObj × List Char)
  | 0, _ => none
  | f + 1, l =>
    match jSkipWs l with
    | '"' :: body =>
      pbind (parseStrBody body) (fun kr =>
        pairsColon (fun r => parseV f r) (fun r => parsePairs f r) kr.1 (jSkipWs kr.2))
    | _ => none
end

/-- `json.loads`: parse one value, allow trailing whitespace only. -/
def jloads (l : List Char) : Option JVal :=
  match parseV (l.length + 1) l with
  | some (v, r) =>
    match jSkipWs r with
    | [] => some v
    | _ => none
  | none => none

/-! ## Framing: `PumpdulerMessage` (`message.py`) and the read loop split -/

/-- The frame terminator byte, `PumpdulerMessage.MESSAGE_END_SIGN`. -/
def msgEndSign : Char := '\n'

/-- `PumpdulerMessage.dump`: encoded payload plus one terminator byte. -/
def pmDump (v : JVal) : List Char := encodeVal v ++ [msgEndSign]

/-- `PumpdulerMessage.load` on a payload: delegate to the codec. -/
def pmLoad (l : List Char) : Option JVal := jloads l

/-- One step of the `_handle` buffer split: `data.split(MESSAGE_END_SIGN, 1)`
when the terminator occurs, splitting at its first occurrence. -/
def splitFrame : List Char → Option (List Char × List Char)
  | [] => none
  | c :: cs =>
    if c = msgEndSign then some ([], cs)
    else (splitFrame cs).map (fun p => (c :: p.1, p.2))

/-! ## Codec lemmas: characters and decimal integers -/

theorem charNe {c d : Char} (h : c.toNat ≠ d.toNat) : c ≠ d :=
  fun he => h (he ▸ rfl)

theorem digitChar_toNat {d : Nat} (h : d < 10) : (digitChar d).toNat = 48 + d := by
  interval_cases d <;> decide

theorem jIsDigit_digitChar {d : Nat} (h : d < 10) : jIsDigit (digitChar d) = true := by
  interval_cases d <;> decide

theorem digitVal_digitChar {d : Nat} (h : d < 10) : digitVal (digitChar d) = d := by
  interval_cases d <;> decide

theorem encNatCore_digits :
    ∀ f n, n ≤ f → ∀ c ∈ encNatCore f n, jIsDigit c = true := by
  intro f
  induction f with
  | zero =>
    intro n hn
    interval_cases n
    simp [encNatCore]
  | succ f ih =>
    intro n hn c hc
    match n with
    | 0 => simp [encNatCore] at hc
    | m + 1 =>
      rw [encNatCore] at hc
      rcases List.mem_append.mp hc with h | h
      · exact ih ((m + 1) / 10)
          (by have := Nat.div_lt_self (Nat.succ_pos m) (show 1 < 10 by norm_num); omega) c h
      · simp at h
        subst h
        exact jIsDigit_digitChar (Nat.mod_lt _ (by norm_num))

theorem encNatCore_foldl :
    ∀ f n a, n ≤ f →
      (encNatCore f n).foldl (fun a c => a * 10 + digitVal c) a =
        a * 10 ^ (encNatCore f n).length + n := by
  intro f
  induction f with
  | zero =>
    intro n a hn
    interval_cases n
    simp [encNatCore]
  | succ f ih =>
    intro n a hn
    match n with
    | 0 => simp [encNatCore]
    | m + 1 =>
      rw [encNatCore, List.foldl_append, List.length_append]
      have hq : (m + 1) / 10 ≤ f := by
        have := Nat.div_lt_self (Nat.succ_pos m) (show 1 < 10 by norm_num)
        omega
      rw [ih ((m + 1) / 10) a hq]
      simp only [List.foldl_cons, List.foldl_nil, List.length_cons, List.length_nil]
      rw [digitVal_digitChar (Nat.mod_lt _ (by norm_num))]
      have hdm := Nat.div_add_mod (m + 1) 10
      calc (a * 10 ^ (encNatCore f ((m + 1) / 10)).length + (m + 1) / 10) * 10 + (m + 1) % 10
          = a * (10 ^ (encNatCore f ((m + 1) / 10)).length * 10) +
              (10 * ((m + 1) / 10) + (m + 1) % 10) := by ring
        _ = a * 10 ^ ((encNatCore f ((m + 1) / 10)).length + 1) + (m + 1) := by
              rw [Nat.pow_succ, hdm]

theorem encNatCore_head :
    ∀ f n, 1 ≤ n → n ≤ f →
      ∃ c cs, encNatCore f n = c :: cs ∧ jIsDigit c = true ∧ c ≠ '0' := by
  intro f
  induction f with
  | zero => intro n h1 h2; omega
  | succ f ih =>
    intro n h1 h2
    match n with
    | m + 1 =>
      rw [encNatCore]
      by_cases hq : (m + 1) / 10 = 0
      · rw [hq]
        simp only [encNatCore, List.nil_append]
        refine ⟨digitChar ((m + 1) % 10), [], rfl,
          jIsDigit_digitChar (Nat.mod_lt _ (by norm_num)), ?_⟩
        have hdm := Nat.div_add_mod (m + 1) 10
        have hr : 1 ≤ (m + 1) % 10 := by omega
        have ht := digitChar_toNat (Nat.mod_lt (m + 1) (show 0 < 10 by norm_num))
        exact charNe (by rw [ht]; show 48 + (m + 1) % 10 ≠ 48; omega)
      · have hqle : (m + 1) / 10 ≤ f := by
          have := Nat.div_lt_self (Nat.succ_pos m) (show 1 < 10 by norm_num)
          omega
        obtain ⟨c, cs, heq, hdig, hne⟩ := ih ((m + 1) / 10) (by omega) hqle
        exact ⟨c, cs ++ [digitChar ((m + 1) % 10)], by rw [heq]; simp, hdig, hne⟩

/-- Strings whose head is not a digit; a digit run stops here. -/
def noDigitStart : List Char → Bool
  | [] => true
  | c :: _ => !jIsDigit c

theorem parseDigitsAux_stop {rest : List Char} (h : noDigitStart rest = true) (a : Nat) :
    parseDigitsAux a rest = (a, rest) := by
  match rest with
  | [] => rfl
  | c :: cs =>
    simp [noDigitStart] at h
    simp [parseDigitsAux, h]

theorem parseDigitsAux_append :
    ∀ ds, (∀ c ∈ ds, jIsDigit c = true) → ∀ a rest,
      parseDigitsAux a (ds ++ rest) =
        parseDigitsAux (ds.foldl (fun a c => a * 10 + digitVal c) a) rest := by
  intro ds
  induction ds with
  | nil => intro _ a rest; rfl
  | cons c cs ih =>
    intro hall a rest
    have hc : jIsDigit c = true := hall c (by simp)
    simp only [List.cons_append, parseDigitsAux, hc, if_true, List.foldl_cons]
    exact ih (fun x hx => hall x (by simp [hx])) _ rest

theorem encNat_head : ∀ n, ∃ c cs, encNat n = c :: cs ∧ jIsDigit c = true := by
  intro n
  by_cases h : n = 0
  · exact ⟨'0', [], by simp [encNat, h], by decide⟩
  · obtain ⟨c, cs, heq, hdig, _⟩ := encNatCore_head n n (by omega) le_rfl
    exact ⟨c, cs, by simp [encNat, h, heq], hdig⟩

theorem parseUInt_encNat {n : Nat} {rest : List Char} (h : noDigitStart rest = true) :
    parseUInt (encNat n ++ rest) = some (n, rest) := by
  by_cases h0 : n = 0
  · subst h0
    simp [encNat, parseUInt, h, parseDigitsAux_stop h]
  · obtain ⟨c, cs, heq, hdig, hne⟩ := encNatCore_head n n (by omega) le_rfl
    have hen : encNat n = c :: cs := by simp [encNat, h0, heq]
    rw [hen, List.cons_append]
    have hall : ∀ x ∈ c :: cs, jIsDigit x = true := by
      rw [← heq]; exact encNatCore_digits n n le_rfl
    simp only [parseUInt, hdig, if_true, hne, if_neg (show ¬c = '0' from hne)]
    have happ := parseDigitsAux_append cs (fun x hx => hall x (by simp [hx]))
      (digitVal c) rest
    rw [happ, parseDigitsAux_stop h]
    have hfold := encNatCore_foldl n n 0 le_rfl
    rw [heq] at hfold
    simp only [List.foldl_cons] at hfold
    simp only [Nat.zero_mul, Nat.zero_add] at hfold
    rw [hfold]
    simp

theorem parseNum_encInt :
    ∀ (i : Int) (rest : List Char), noDigitStart rest = true → numEndOk rest = true →
      parseNum (encInt i ++ rest) = some (i, rest) := by
  intro i rest hnd hne
  match i with
  | .ofNat n =>
    obtain ⟨c, cs, heq, hdig⟩ := encNat_head n
    have hcm : ¬c = '-' := by
      simp [jIsDigit] at hdig
      exact charNe (show c.toNat ≠ ('-' : Char).toNat by
        have : ('-' : Char).toNat = 45 := rfl
        omega)
    show parseNum (encNat n ++ rest) = some ((n : Int), rest)
    rw [heq, List.cons_append]
    simp only [parseNum, hcm, if_neg (show ¬c = '-' from hcm)]
    rw [← List.cons_append, ← heq, parseUInt_encNat hnd]
    simp [hne]
  | .negSucc m =>
    show parseNum ('-' :: (encNat (m + 1) ++ rest)) = some (.negSucc m, rest)
    simp only [parseNum, if_pos rfl]
    rw [parseUInt_encNat hnd]
    simp only [hne, if_true]
    norm_num [Int.negSucc_eq]

/-! ## Codec lemmas: strings -/

/-- Characters the codec model round-trips: code points below `0x10000`
(above that `json.dumps` emits surrogate pairs, which the model's
`json.loads` does not recombine). -/
def strOk (s : List Char) : Bool := s.all (fun c => c.toNat < 65536)

theorem charValidNat (c : Char) :
    c.toNat < 55296 ∨ (57344 ≤ c.toNat ∧ c.toNat < 1114112) := by
  have h := c.valid
  simp only [UInt32.isValidChar, Nat.isValidChar] at h
  exact h

theorem hexVal_hexDigitChar {d : Nat} (h : d < 16) :
    hexVal (hexDigitChar d) = some d := by
  interval_cases d <;> decide

theorem parseStrBody_uEsc (n : Nat) (hn : n < 55296 ∨ 57344 ≤ n) (hhi : n < 65536)
    (l : List Char) :
    parseStrBody (uEsc n ++ l) = mapCons (Char.ofNat n) (parseStrBody l) := by
  have e1 := hexVal_hexDigitChar (show n / 4096 % 16 < 16 from Nat.mod_lt _ (by norm_num))
  have e2 := hexVal_hexDigitChar (show n / 256 % 16 < 16 from Nat.mod_lt _ (by norm_num))
  have e3 := hexVal_hexDigitChar (show n / 16 % 16 < 16 from Nat.mod_lt _ (by norm_num))
  have e4 := hexVal_hexDigitChar (show n % 16 < 16 from Nat.mod_lt _ (by norm_num))
  have hval : ((n / 4096 % 16 * 16 + n / 256 % 16) * 16 + n / 16 % 16) * 16 + n % 16 = n := by
    omega
  rcases hn with h | h
  · simp [uEsc, parseStrBody, e1, e2, e3, e4, hval, h]
  · simp [uEsc, parseStrBody, e1, e2, e3, e4, hval, h]

theorem parseStrBody_plain {c : Char} (h1 : ¬c = '"') (h2 : ¬c = '\\')
    (h3 : ¬c.toNat < 32) (X : List Char) :
    parseStrBody (c :: X) = mapCons c (parseStrBody X) := by
  rw [parseStrBody.eq_def]
  simp only [if_neg h1, if_neg h2, if_neg h3]

theorem parseStrBody_quote (X : List Char) : parseStrBody ('"' :: X) = some ([], X) := by
  rw [parseStrBody.eq_def]; exact rfl

theorem parseStrBody_escQuote (X : List Char) :
    parseStrBody ('\\' :: '"' :: X) = mapCons '"' (parseStrBody X) := by
  rw [parseStrBody.eq_def]; exact rfl

theorem parseStrBody_escBack (X : List Char) :
    parseStrBody ('\\' :: '\\' :: X) = mapCons '\\' (parseStrBody X) := by
  rw [parseStrBody.eq_def]; exact rfl

theorem parseStrBody_escN (X : List Char) :
    parseStrBody ('\\' :: 'n' :: X) = mapCons '\n' (parseStrBody X) := by
  rw [parseStrBody.eq_def]; exact rfl

theorem parseStrBody_escR (X : List Char) :
    parseStrBody ('\\' :: 'r' :: X) = mapCons '\r' (parseStrBody X) := by
  rw [parseStrBody.eq_def]; exact rfl

theorem parseStrBody_escT (X : List Char) :
    parseStrBody ('\\' :: 't' :: X) = mapCons '\t' (parseStrBody X) := by
  rw [parseStrBody.eq_def]; exact rfl

theorem parseStrBody_escB (X : List Char) :
    parseStrBody ('\\' :: 'b' :: X) = mapCons (Char.ofNat 8) (parseStrBody X) := by
  rw [parseStrBody.eq_def]; exact rfl

theorem parseStrBody_escF (X : List Char) :
    parseStrBody ('\\' :: 'f' :: X) = mapCons (Char.ofNat 12) (parseStrBody X) := by
  rw [parseStrBody.eq_def]; exact rfl

theorem parseStrBody_escStr :
    ∀ s : List Char, strOk s = true → ∀ rest,
      parseStrBody (escStr s ++ '"' :: rest) = some (s, rest) := by
  intro s
  induction s with
  | nil => intro _ rest; simp only [escStr, List.nil_append, parseStrBody_quote]
  | cons c cs ih =>
    intro hok rest
    have hok' : c.toNat < 65536 ∧ strOk cs = true := by
      simpa [strOk] using hok
    have ihr := ih hok'.2 rest
    simp only [escStr, List.append_assoc]
    by_cases h1 : c = '"'
    · subst h1
      rw [show escChar '"' = ['\\', '"'] from rfl]
      rw [List.cons_append, List.cons_append, List.nil_append, parseStrBody_escQuote, ihr]
      rfl
    by_cases h2 : c = '\\'
    · subst h2
      rw [show escChar '\\' = ['\\', '\\'] from rfl]
      rw [List.cons_append, List.cons_append, List.nil_append, parseStrBody_escBack, ihr]
      rfl
    by_cases h3 : c = '\n'
    · subst h3
      rw [show escChar '\n' = ['\\', 'n'] from rfl]
      rw [List.cons_append, List.cons_append, List.nil_append, parseStrBody_escN, ihr]
      rfl
    by_cases h4 : c = '\r'
    · subst h4
      rw [show escChar '\r' = ['\\', 'r'] from rfl]
      rw [List.cons_append, List.cons_append, List.nil_append, parseStrBody_escR, ihr]
      rfl
    by_cases h5 : c = '\t'
    · subst h5
      rw [show escChar '\t' = ['\\', 't'] from rfl]
      rw [List.cons_append, List.cons_append, List.nil_append, parseStrBody_escT, ihr]
      rfl
    by_cases h6 : c.toNat = 8
    · have hc : c = Char.ofNat 8 := by rw [← h6, Char.ofNat_toNat]
      have hesc : escChar c = ['\\', 'b'] := by
        simp [escChar, h1, h2, h3, h4, h5, h6]
      rw [hesc, List.cons_append, List.cons_append, List.nil_append, parseStrBody_escB, ihr,
        ← hc]
      rfl
    by_cases h7 : c.toNat = 12
    · have hc : c = Char.ofNat 12 := by rw [← h7, Char.ofNat_toNat]
      have hesc : escChar c = ['\\', 'f'] := by
        simp [escChar, h1, h2, h3, h4, h5, h6, h7]
      rw [hesc, List.cons_append, List.cons_append, List.nil_append, parseStrBody_escF, ihr,
        ← hc]
      rfl
    by_cases h8 : c.toNat < 32
    · have hesc : escChar c = uEsc c.toNat := by
        simp [escChar, h1, h2, h3, h4, h5, h6, h7, h8]
      rw [hesc, parseStrBody_uEsc c.toNat (by omega) (by omega), ihr]
      simp [mapCons, Char.ofNat_toNat]
    by_cases h9 : c.toNat < 127
    · have hesc : escChar c = [c] := by
        simp [escChar, h1, h2, h3, h4, h5, h6, h7, h8, h9]
      rw [hesc, List.cons_append, List.nil_append, parseStrBody_plain h1 h2 h8, ihr]
      rfl
    · have hesc : escChar c = uEsc c.toNat := by
        simp [escChar, h1, h2, h3, h4, h5, h6, h7, h8, h9, hok'.1]
      have hval := charValidNat c
      rw [hesc, parseStrBody_uEsc c.toNat (by omega) hok'.1, ihr]
      simp [mapCons, Char.ofNat_toNat]

/-! ## Codec lemmas: whitespace, literals, head shapes, fuel -/

/-- Strings made only of JSON whitespace. -/
def wsOnly (l : List Char) : Bool := l.all jIsWs

theorem takeLit_self : ∀ (pre l : List Char), takeLit pre (pre ++ l) = some l := by
  intro pre
  induction pre with
  | nil => intro l; rfl
  | cons c cs ih => intro l; simp [takeLit, ih]

theorem jSkipWs_not {c : Char} (h : jIsWs c = false) (l : List Char) :
    jSkipWs (c :: l) = c :: l := by
  simp [jSkipWs, h]

theorem jSkipWs_ws : ∀ {ws : List Char}, wsOnly ws = true → ∀ l,
    jSkipWs (ws ++ l) = jSkipWs l := by
  intro ws
  induction ws with
  | nil => intro _ l; rfl
  | cons c cs ih =>
    intro h l
    have h' : jIsWs c = true ∧ wsOnly cs = true := by simpa [wsOnly] using h
    simp [jSkipWs, h'.1, ih h'.2]

mutual
/-- Values the codec model round-trips: every string is `strOk`. -/
def jvalOk : JVal → Bool
  | .null => true
  | .bool _ => true
  | .int _ => true
  | .str s => strOk s
  | .arr xs => jarrOk xs
  | .obj ms => jobjOk ms
/-- Array version of `jvalOk`. -/
def jarrOk : JArr → Bool
  | .nil => true
  | .cons v tl => jvalOk v && jarrOk tl
/-- Object version of `jvalOk`: keys are `strOk` too. -/
def jobjOk : JObj → Bool
  | .nil => true
  | .cons k v tl => strOk k && (jvalOk v && jobjOk tl)
end

mutual
/-- Fuel sufficient for `parseV` to parse the encoding of a value. -/
def fuelV : JVal → Nat
  | .null => 1
  | .bool _ => 1
  | .int _ => 1
  | .str _ => 1
  | .arr .nil => 1
  | .arr (.cons v tl) => fuelA (.cons v tl) + 1
  | .obj .nil => 1
  | .obj (.cons k v tl) => fuelO (.cons k v tl) + 1
/-- Fuel sufficient for `parseItems` on an array tail. -/
def fuelA : JArr → Nat
  | .nil => 0
  | .cons v tl => max (fuelV v) (fuelA tl) + 1
/-- Fuel sufficient for `parsePairs` on an object tail. -/
def fuelO : JObj → Nat
  | .nil => 0
  | .cons _ v tl => max (fuelV v) (fuelO tl) + 1
end

theorem fuelV_pos (v : JVal) : 1 ≤ fuelV v := by
  cases v with
  | null => simp [fuelV]
  | bool b => simp [fuelV]
  | int n => simp [fuelV]
  | str s => simp [fuelV]
  | arr xs => cases xs <;> simp [fuelV]
  | obj ms => cases ms <;> simp [fuelV]

/-- Heads that may follow a complete value inside a document: a comma,
a closing bracket, a closing brace or whitespace (or the end of input). -/
def sepOk : List Char → Bool
  | [] => true
  | c :: _ => c = ',' || c = ']' || c = cbrace || jIsWs c

theorem sepOk_facts {r : List Char} (h : sepOk r = true) :
    noDigitStart r = true ∧ numEndOk r = true := by
  match r with
  | [] => exact ⟨rfl, rfl⟩
  | c :: cs =>
    have hc : c.toNat = 44 ∨ c.toNat = 93 ∨ c.toNat = 125 ∨ c.toNat = 32 ∨ c.toNat = 9 ∨
        c.toNat = 10 ∨ c.toNat = 13 := by
      simp only [sepOk, jIsWs, Bool.or_eq_true, decide_eq_true_eq] at h
      rcases h with ((h | h) | h) | h
      · left; rw [h]; rfl
      · right; left; rw [h]; rfl
      · right; right; left; rw [h]; rfl
      · tauto
    constructor
    · show (!jIsDigit c) = true
      simp only [jIsDigit, Bool.not_eq_true', Bool.and_eq_false_iff, decide_eq_false_iff_not]
      omega
    · show (!(c = '.' || c = 'e' || c = 'E' : Bool)) = true
      simp only [Bool.not_eq_true', Bool.or_eq_false_iff, decide_eq_false_iff_not]
      exact ⟨⟨charNe (show c.toNat ≠ 46 by omega), charNe (show c.toNat ≠ 101 by omega)⟩,
        charNe (show c.toNat ≠ 69 by omega)⟩

/-- Every encoding starts with a character that is not whitespace, not a
closing bracket and not a closing brace. -/
theorem encHead (v : JVal) :
    ∃ c t, encodeVal v = c :: t ∧ jIsWs c = false ∧ ¬c = ']' ∧ ¬c = cbrace := by
  cases v with
  | int n =>
    match n with
    | .ofNat m =>
      obtain ⟨c, cs, heq, hdig⟩ := encNat_head m
      have hb : 48 ≤ c.toNat ∧ c.toNat ≤ 57 := by simpa [jIsDigit] using hdig
      refine ⟨c, cs, heq, ?_, ?_, ?_⟩
      · simp [jIsWs]; omega
      · exact charNe (show c.toNat ≠ 93 by omega)
      · exact charNe (show c.toNat ≠ 125 by omega)
    | .negSucc m => refine ⟨'-', _, rfl, ?_, ?_, ?_⟩ <;> decide
  | null => refine ⟨'n', _, rfl, ?_, ?_, ?_⟩ <;> decide
  | bool b =>
    cases b with
    | true => refine ⟨'t', _, rfl, ?_, ?_, ?_⟩ <;> decide
    | false => refine ⟨'f', _, rfl, ?_, ?_, ?_⟩ <;> decide
  | str s => refine ⟨'"', _, rfl, ?_, ?_, ?_⟩ <;> decide
  | arr xs =>
    cases xs with
    | nil => refine ⟨'[', _, rfl, ?_, ?_, ?_⟩ <;> decide
    | cons v tl => refine ⟨'[', _, rfl, ?_, ?_, ?_⟩ <;> decide
  | obj ms =>
    cases ms with
    | nil => refine ⟨obrace, _, rfl, ?_, ?_, ?_⟩ <;> decide
    | cons k v tl => refine ⟨obrace, _, rfl, ?_, ?_, ?_⟩ <;> decide

theorem parseV_cons (f : Nat) (c : Char) (cs : List Char) (h : jIsWs c = false) :
    parseV (f + 1) (c :: cs) =
      if c = 'n' then (takeLit ['u', 'l', 'l'] cs).map (fun r => (JVal.null, r))
      else if c = 't' then (takeLit ['r', 'u', 'e'] cs).map (fun r => (JVal.bool true, r))
      else if c = 'f' then
        (takeLit ['a', 'l', 's', 'e'] cs).map (fun r => (JVal.bool false, r))
      else if c = '"' then (parseStrBody cs).map (fun p => (JVal.str p.1, p.2))
      else if c = '[' then
        match jSkipWs cs with
        | ']' :: r => some (JVal.arr .nil, r)
        | l₂ => (parseItems f l₂).map (fun p => (JVal.arr p.1, p.2))
      else if c = obrace then
        match jSkipWs cs with
        | [] => none
        | c₂ :: r =>
          if c₂ = cbrace then some (JVal.obj .nil, r)
          else (parsePairs f (c₂ :: r)).map (fun p => (JVal.obj p.1, p.2))
      else if c = '-' || jIsDigit c then
        (parseNum (c :: cs)).map (fun p => (JVal.int p.1, p.2))
      else none := by
  rw [parseV.eq_2, jSkipWs_not h]

/-! ## Codec round-trip -/

/-- Round-trip statement for values at a given fuel. -/
def RoundV (fuel : Nat) : Prop :=
  ∀ ws v rest, wsOnly ws = true → jvalOk v = true → fuelV v ≤ fuel → sepOk rest = true →
    parseV fuel (ws ++ (encodeVal v ++ rest)) = some (v, rest)

/-- Round-trip statement for nonempty array bodies at a given fuel. -/
def RoundA (fuel : Nat) : Prop :=
  ∀ ws v tl rest, wsOnly ws = true → jvalOk v = true → jarrOk tl = true →
    fuelA (JArr.cons v tl) ≤ fuel →
    parseItems fuel (ws ++ (encodeVal v ++ (encSepItems tl ++ ']' :: rest))) =
      some (JArr.cons v tl, rest)

/-- Round-trip statement for nonempty object bodies at a given fuel. -/
def RoundO (fuel : Nat) : Prop :=
  ∀ ws k v tl rest, wsOnly ws = true → strOk k = true → jvalOk v = true →
    jobjOk tl = true → fuelO (JObj.cons k v tl) ≤ fuel →
    parsePairs fuel
        (ws ++ (encStr k ++ ':' :: ' ' :: (encodeVal v ++ (encSepPairs tl ++ cbrace :: rest)))) =
      some (JObj.cons k v tl, rest)

theorem digitHeadNe {c : Char} (hb : 48 ≤ c.toNat ∧ c.toNat ≤ 57) :
    ¬c = 'n' ∧ ¬c = 't' ∧ ¬c = 'f' ∧ ¬c = '"' ∧ ¬c = '[' ∧ ¬c = obrace := by
  exact ⟨charNe (show c.toNat ≠ 110 by omega), charNe (show c.toNat ≠ 116 by omega),
    charNe (show c.toNat ≠ 102 by omega), charNe (show c.toNat ≠ 34 by omega),
    charNe (show c.toNat ≠ 91 by omega), charNe (show c.toNat ≠ 123 by omega)⟩

theorem parseV_wsAppend {ws : List Char} (h : wsOnly ws = true) (f : Nat) (l : List Char) :
    parseV (f + 1) (ws ++ l) = parseV (f + 1) l := by
  rw [parseV.eq_2, parseV.eq_2, jSkipWs_ws h]

theorem roundV_succ (f : Nat) (ihA : RoundA f) (ihO : RoundO f) : RoundV (f + 1) := by
  intro ws v rest hws hok hfuel hsep
  rw [parseV_wsAppend hws]
  obtain ⟨hnd, hne⟩ := sepOk_facts hsep
  cases v with
  | null =>
    simp only [encodeVal, litNull, List.cons_append, List.nil_append]
    rw [parseV_cons f 'n' _ (by decide)]
    simp [takeLit]
  | bool b =>
    cases b with
    | true =>
      simp only [encodeVal, litTrue, List.cons_append, List.nil_append]
      rw [parseV_cons f 't' _ (by decide)]
      simp [takeLit]
    | false =>
      simp only [encodeVal, litFalse, List.cons_append, List.nil_append]
      rw [parseV_cons f 'f' _ (by decide)]
      simp [takeLit]
  | int n =>
    have hpn := parseNum_encInt n rest hnd hne
    match n with
    | .ofNat m =>
      obtain ⟨c, cs, heq, hdig⟩ := encNat_head m
      have hb : 48 ≤ c.toNat ∧ c.toNat ≤ 57 := by simpa [jIsDigit] using hdig
      obtain ⟨d1, d2, d3, d4, d5, d6⟩ := digitHeadNe hb
      have hwsc : jIsWs c = false := by simp [jIsWs]; omega
      have hencn : encInt (Int.ofNat m) = encNat m := rfl
      rw [show encodeVal (JVal.int (Int.ofNat m)) = encInt (Int.ofNat m) from rfl,
        hencn, heq, List.cons_append, parseV_cons f c _ hwsc]
      simp only [if_neg d1, if_neg d2, if_neg d3, if_neg d4, if_neg d5, if_neg d6, hdig,
        Bool.or_true, if_pos]
      rw [← List.cons_append, ← heq, ← hencn, hpn]
      rfl
    | .negSucc m =>
      rw [show encodeVal (JVal.int (Int.negSucc m)) = '-' :: encNat (m + 1) from rfl,
        List.cons_append, parseV_cons f '-' _ (by decide)]
      simp only [if_neg (by decide : ¬('-' : Char) = 'n'),
        if_neg (by decide : ¬('-' : Char) = 't'), if_neg (by decide : ¬('-' : Char) = 'f'),
        if_neg (by decide : ¬('-' : Char) = '"'), if_neg (by decide : ¬('-' : Char) = '['),
        if_neg (by decide : ¬('-' : Char) = obrace),
        show (('-' : Char) = '-' || jIsDigit '-') = true from rfl, if_pos]
      rw [show ('-' :: (encNat (m + 1) ++ rest)) = encInt (Int.negSucc m) ++ rest from rfl,
        hpn]
      rfl
  | str s =>
    have hsok : strOk s = true := by simpa [jvalOk] using hok
    rw [show encodeVal (JVal.str s) = '"' :: (escStr s ++ ['"']) from rfl, List.cons_append,
      parseV_cons f '"' _ (by decide)]
    simp only [if_neg (by decide : ¬('"' : Char) = 'n'),
      if_neg (by decide : ¬('"' : Char) = 't'), if_neg (by decide : ¬('"' : Char) = 'f'),
      if_pos rfl]
    rw [List.append_assoc, List.singleton_append, parseStrBody_escStr s hsok rest]
    rfl
  | arr xs =>
    cases xs with
    | nil =>
      simp only [encodeVal, List.cons_append, List.nil_append]
      rw [parseV_cons f '[' _ (by decide)]
      simp only [if_neg (by decide : ¬('[' : Char) = 'n'),
        if_neg (by decide : ¬('[' : Char) = 't'), if_neg (by decide : ¬('[' : Char) = 'f'),
        if_neg (by decide : ¬('[' : Char) = '"'), if_pos rfl]
      rw [jSkipWs_not (by decide) rest]
      exact rfl
    | cons v tl =>
      have hok' : jvalOk v = true ∧ jarrOk tl = true := by
        have : (jvalOk v && jarrOk tl) = true := by simpa [jvalOk, jarrOk] using hok
        simpa using this
      have hfuel' : fuelA (JArr.cons v tl) ≤ f := by
        have : fuelA (JArr.cons v tl) + 1 ≤ f + 1 := by
          simpa [fuelV] using hfuel
        omega
      rw [show encodeVal (JVal.arr (JArr.cons v tl)) =
        '[' :: (encodeVal v ++ encSepItems tl) ++ [']'] from rfl]
      simp only [List.cons_append, List.append_assoc, List.singleton_append, List.nil_append]
      rw [parseV_cons f '[' _ (by decide)]
      simp only [if_neg (by decide : ¬('[' : Char) = 'n'),
        if_neg (by decide : ¬('[' : Char) = 't'), if_neg (by decide : ¬('[' : Char) = 'f'),
        if_neg (by decide : ¬('[' : Char) = '"'), eq_self_iff_true, if_true]
      obtain ⟨c₁, t₁, henc, hcws, hcbr, -⟩ := encHead v
      have hitems := ihA [] v tl rest rfl hok'.1 hok'.2 hfuel'
      rw [List.nil_append] at hitems
      rw [henc] at hitems ⊢
      simp only [List.cons_append] at hitems ⊢
      rw [jSkipWs_not hcws]
      split
      · rename_i heq'
        exfalso
        rw [List.cons_eq_cons] at heq'
        exact hcbr heq'.1
      · rw [hitems]
        rfl
  | obj ms =>
    cases ms with
    | nil =>
      simp only [encodeVal, List.cons_append, List.nil_append]
      rw [parseV_cons f obrace _ (by decide)]
      simp only [if_neg (by decide : ¬obrace = 'n'), if_neg (by decide : ¬obrace = 't'),
        if_neg (by decide : ¬obrace = 'f'), if_neg (by decide : ¬obrace = '"'),
        if_neg (by decide : ¬obrace = '['), if_pos rfl]
      rw [jSkipWs_not (by decide) rest]
      simp
    | cons k v tl =>
      have hok' : strOk k = true ∧ jvalOk v = true ∧ jobjOk tl = true := by
        have : (strOk k && (jvalOk v && jobjOk tl)) = true := by
          simpa [jvalOk, jobjOk] using hok
        simpa using this
      have hfuel' : fuelO (JObj.cons k v tl) ≤ f := by
        have : fuelO (JObj.cons k v tl) + 1 ≤ f + 1 := by
          simpa [fuelV] using hfuel
        omega
      rw [show encodeVal (JVal.obj (JObj.cons k v tl)) =
        obrace :: (encStr k ++ ':' :: ' ' :: encodeVal v ++ encSepPairs tl) ++ [cbrace]
        from rfl]
      simp only [List.cons_append, List.append_assoc, List.singleton_append, List.nil_append]
      rw [parseV_cons f obrace _ (by decide)]
      simp only [if_neg (by decide : ¬obrace = 'n'), if_neg (by decide : ¬obrace = 't'),
        if_neg (by decide : ¬obrace = 'f'), if_neg (by decide : ¬obrace = '"'),
        if_neg (by decide : ¬obrace = '['), eq_self_iff_true, if_true]
      rw [show encStr k = '"' :: (escStr k ++ ['"']) from rfl]
      simp only [List.cons_append, List.append_assoc, List.singleton_append, List.nil_append]
      rw [jSkipWs_not (by decide)]
      have hpairs := ihO [] k v tl rest rfl hok'.1 hok'.2.1 hok'.2.2 hfuel'
      rw [List.nil_append, show encStr k = '"' :: (escStr k ++ ['"']) from rfl] at hpairs
      simp only [List.cons_append, List.append_assoc, List.singleton_append,
        List.nil_append] at hpairs
      change Option.map (fun p => (JVal.obj p.1, p.2)) (parsePairs f _) = _
      rw [hpairs]
      rfl

theorem pbind_some {α β : Type} (a : α) (g : α → Option β) : pbind (some a) g = g a := rfl

theorem roundA_succ (f : Nat) (ihV : RoundV f) (ihA : RoundA f) : RoundA (f + 1) := by
  intro ws v tl rest hws hokv hoktl hfuel
  have hmax : max (fuelV v) (fuelA tl) ≤ f := by
    simp only [fuelA] at hfuel
    omega
  have hf1 : fuelV v ≤ f := (Nat.max_le.mp hmax).1
  have hf2 : fuelA tl ≤ f := (Nat.max_le.mp hmax).2
  cases tl with
  | nil =>
    simp only [encSepItems, List.nil_append]
    have hV := ihV ws v (']' :: rest) hws hokv hf1 rfl
    rw [parseItems.eq_2, hV, pbind_some]
    simp only []
    rw [jSkipWs_not (by decide)]
    rw [itemsAfter]
    simp
  | cons v₂ tl₂ =>
    have hok₂ : jvalOk v₂ = true ∧ jarrOk tl₂ = true := by
      have : (jvalOk v₂ && jarrOk tl₂) = true := by simpa [jarrOk] using hoktl
      simpa using this
    simp only [encSepItems, List.cons_append, List.append_assoc]
    have hV := ihV ws v (',' :: ' ' :: (encodeVal v₂ ++ (encSepItems tl₂ ++ ']' :: rest)))
      hws hokv hf1 rfl
    simp only [List.cons_append, List.append_assoc] at hV
    rw [parseItems.eq_2, hV, pbind_some]
    simp only []
    rw [jSkipWs_not (by decide)]
    rw [itemsAfter]
    simp only [if_neg (by decide : ¬(',' : Char) = ']'), eq_self_iff_true, if_true]
    have hA := ihA [' '] v₂ tl₂ rest rfl hok₂.1 hok₂.2 hf2
    rw [List.singleton_append] at hA
    rw [hA]
    rfl

theorem roundO_succ (f : Nat) (ihV : RoundV f) (ihO : RoundO f) : RoundO (f + 1) := by
  intro ws k v tl rest hws hokk hokv hoktl hfuel
  have hmax : max (fuelV v) (fuelO tl) ≤ f := by
    simp only [fuelO] at hfuel
    omega
  have hf1 : fuelV v ≤ f := (Nat.max_le.mp hmax).1
  have hf2 : fuelO tl ≤ f := (Nat.max_le.mp hmax).2
  rw [parsePairs.eq_2, jSkipWs_ws hws]
  rw [show encStr k = '"' :: (escStr k ++ ['"']) from rfl]
  simp only [List.cons_append, List.append_assoc, List.singleton_append]
  rw [jSkipWs_not (by decide)]
  -- the match selects the quote branch definitionally; state the result
  show pbind (parseStrBody (escStr k ++ '"' ::
      (':' :: ' ' :: (encodeVal v ++ (encSepPairs tl ++ cbrace :: rest)))))
    (fun kr => pairsColon (fun r => parseV f r) (fun r => parsePairs f r) kr.1
      (jSkipWs kr.2)) = some (JObj.cons k v tl, rest)
  rw [parseStrBody_escStr k hokk, pbind_some]
  simp only []
  rw [jSkipWs_not (by decide)]
  rw [pairsColon]
  have hV := ihV [' '] v (encSepPairs tl ++ cbrace :: rest) rfl hokv hf1
    (by cases tl <;> rfl)
  rw [List.singleton_append] at hV
  rw [hV, pbind_some]
  simp only []
  cases tl with
  | nil =>
    simp only [encSepPairs, List.nil_append]
    rw [jSkipWs_not (by decide)]
    rw [pairsEnd]
    simp only [if_neg (by decide : ¬cbrace = ','), eq_self_iff_true, if_true]
  | cons k₂ v₂ tl₂ =>
    have hok₂ : strOk k₂ = true ∧ jvalOk v₂ = true ∧ jobjOk tl₂ = true := by
      have : (strOk k₂ && (jvalOk v₂ && jobjOk tl₂)) = true := by
        simpa [jobjOk] using hoktl
      simpa using this
    simp only [encSepPairs, List.cons_append, List.append_assoc]
    rw [jSkipWs_not (by decide)]
    rw [pairsEnd]
    simp only [eq_self_iff_true, if_true]
    have hO := ihO [' '] k₂ v₂ tl₂ rest rfl hok₂.1 hok₂.2.1 hok₂.2.2 hf2
    rw [List.singleton_append] at hO
    rw [hO]
    rfl

theorem roundAll : ∀ f, RoundV f ∧ RoundA f ∧ RoundO f := by
  intro f
  induction f with
  | zero =>
    refine ⟨?_, ?_, ?_⟩
    · intro ws v rest _ _ hfuel _
      exact absurd (le_trans (fuelV_pos v) hfuel) (by norm_num)
    · intro ws v tl rest _ _ _ hfuel
      simp only [fuelA] at hfuel
      omega
    · intro ws k v tl rest _ _ _ _ hfuel
      simp only [fuelO] at hfuel
      omega
  | succ f ih =>
    exact ⟨roundV_succ f ih.2.1 ih.2.2, roundA_succ f ih.1 ih.2.1,
      roundO_succ f ih.1 ih.2.2⟩

mutual
/-- The value fuel is covered by the encoding's length plus one. -/
def fuelV_le : (v : JVal) → fuelV v ≤ (encodeVal v).length + 1
  | .null => by decide
  | .bool b => by cases b <;> decide
  | .int n => by simp [fuelV]
  | .str s => by simp [fuelV]
  | .arr .nil => by simp [fuelV, encodeVal]
  | .arr (.cons v tl) => by
      have h2 := fuelA_le v tl
      rw [show encodeVal (JVal.arr (JArr.cons v tl)) =
        '[' :: (encodeVal v ++ encSepItems tl) ++ [']'] from rfl]
      simp only [fuelV, List.length_append, List.length_cons, List.length_nil]
      omega
  | .obj .nil => by simp [fuelV, encodeVal]
  | .obj (.cons k v tl) => by
      have h2 := fuelO_le k v tl
      rw [show encodeVal (JVal.obj (JObj.cons k v tl)) =
        obrace :: (encStr k ++ ':' :: ' ' :: encodeVal v ++ encSepPairs tl) ++ [cbrace]
        from rfl]
      simp only [fuelV, List.length_append, List.length_cons, List.length_nil]
      omega
termination_by v => sizeOf v
decreasing_by all_goals simp_wf <;> omega
/-- The array-body fuel is covered by the body encoding's length. -/
def fuelA_le : (v : JVal) → (tl : JArr) →
    fuelA (JArr.cons v tl) ≤ (encodeVal v).length + (encSepItems tl).length + 2
  | v, .nil => by
      have h1 := fuelV_le v
      have hb : max (fuelV v) (fuelA JArr.nil) ≤ (encodeVal v).length + 1 :=
        Nat.max_le.mpr ⟨h1, by simp [fuelA]⟩
      simp only [fuelA]
      omega
  | v, .cons v₂ tl₂ => by
      have h1 := fuelV_le v
      have h2 := fuelA_le v₂ tl₂
      simp only [fuelA] at h2 ⊢
      simp only [encSepItems, List.length_cons, List.length_append]
      omega
termination_by v tl => sizeOf v + sizeOf tl
decreasing_by all_goals simp_wf <;> omega
/-- The object-body fuel is covered by the body encoding's length. -/
def fuelO_le : (k : List Char) → (v : JVal) → (tl : JObj) →
    fuelO (JObj.cons k v tl) ≤ (encodeVal v).length + (encSepPairs tl).length + 2
  | _, v, .nil => by
      have h1 := fuelV_le v
      have hb : max (fuelV v) (fuelO JObj.nil) ≤ (encodeVal v).length + 1 :=
        Nat.max_le.mpr ⟨h1, by simp [fuelO]⟩
      simp only [fuelO]
      omega
  | _, v, .cons k₂ v₂ tl₂ => by
      have h1 := fuelV_le v
      have h2 := fuelO_le k₂ v₂ tl₂
      simp only [fuelO] at h2 ⊢
      simp only [encSepPairs, List.length_cons, List.length_append]
      omega
termination_by _ v tl => sizeOf v + sizeOf tl
decreasing_by all_goals simp_wf <;> omega
end

/-! ## The terminator byte never occurs inside an encoded payload -/

theorem jIsDigit_ne_nl {c : Char} (h : jIsDigit c = true) : ¬c = msgEndSign := by
  simp only [jIsDigit, Bool.and_eq_true, decide_eq_true_eq] at h
  exact charNe (show c.toNat ≠ 10 by omega)

theorem noNl_encNat (n : Nat) : msgEndSign ∉ encNat n := by
  intro hmem
  by_cases h0 : n = 0
  · subst h0
    simp [encNat] at hmem
    exact absurd hmem (by decide)
  · have : encNat n = encNatCore n n := by simp [encNat, h0]
    rw [this] at hmem
    exact jIsDigit_ne_nl (encNatCore_digits n n le_rfl _ hmem) rfl

theorem noNl_encInt (i : Int) : msgEndSign ∉ encInt i := by
  match i with
  | .ofNat m => exact noNl_encNat m
  | .negSucc m =>
    intro hmem
    rcases List.mem_cons.mp hmem with h | h
    · exact absurd h (by decide)
    · exact noNl_encNat (m + 1) h

theorem noNl_hexDigitChar {d : Nat} (h : d < 16) : ¬hexDigitChar d = msgEndSign := by
  interval_cases d <;> decide

theorem noNl_uEsc (n : Nat) : msgEndSign ∉ uEsc n := by
  intro hmem
  simp only [uEsc, List.mem_cons, List.not_mem_nil, or_false] at hmem
  rcases hmem with h | h | h | h | h | h
  · exact absurd h (by decide)
  · exact absurd h (by decide)
  · exact noNl_hexDigitChar (Nat.mod_lt _ (by norm_num)) h.symm
  · exact noNl_hexDigitChar (Nat.mod_lt _ (by norm_num)) h.symm
  · exact noNl_hexDigitChar (Nat.mod_lt _ (by norm_num)) h.symm
  · exact noNl_hexDigitChar (Nat.mod_lt _ (by norm_num)) h.symm

theorem noNl_escChar (c : Char) : msgEndSign ∉ escChar c := by
  by_cases h1 : c = '"'
  · subst h1; decide
  by_cases h2 : c = '\\'
  · subst h2; decide
  by_cases h3 : c = '\n'
  · subst h3; decide
  by_cases h4 : c = '\r'
  · subst h4; decide
  by_cases h5 : c = '\t'
  · subst h5; decide
  by_cases h6 : c.toNat = 8
  · simp only [escChar, h1, h2, h3, h4, h5, h6, if_false, if_true, ite_true, ite_false]
    decide
  by_cases h7 : c.toNat = 12
  · simp only [escChar, h1, h2, h3, h4, h5, h6, h7, if_false, if_true, ite_true, ite_false]
    decide
  by_cases h8 : c.toNat < 32
  · have hesc : escChar c = uEsc c.toNat := by simp [escChar, h1, h2, h3, h4, h5, h6, h7, h8]
    rw [hesc]
    exact noNl_uEsc _
  by_cases h9 : c.toNat < 127
  · have hesc : escChar c = [c] := by simp [escChar, h1, h2, h3, h4, h5, h6, h7, h8, h9]
    rw [hesc]
    intro hmem
    rcases List.mem_cons.mp hmem with h | h
    · exact charNe (show msgEndSign.toNat ≠ c.toNat from show (10 : Nat) ≠ c.toNat by omega) h
    · exact absurd h (by simp)
  by_cases h10 : c.toNat < 65536
  · have hesc : escChar c = uEsc c.toNat := by
      simp [escChar, h1, h2, h3, h4, h5, h6, h7, h8, h9, h10]
    rw [hesc]
    exact noNl_uEsc _
  · have hesc : escChar c =
        uEsc (55296 + (c.toNat - 65536) / 1024) ++ uEsc (56320 + (c.toNat - 65536) % 1024) := by
      simp [escChar, h1, h2, h3, h4, h5, h6, h7, h8, h9, h10]
    rw [hesc]
    intro hmem
    rcases List.mem_append.mp hmem with h | h
    · exact noNl_uEsc _ h
    · exact noNl_uEsc _ h

theorem noNl_escStr (s : List Char) : msgEndSign ∉ escStr s := by
  induction s with
  | nil => simp [escStr]
  | cons c cs ih =>
    simp only [escStr]
    intro hmem
    rcases List.mem_append.mp hmem with h | h
    · exact noNl_escChar c h
    · exact ih h

theorem noNl_encStr (s : List Char) : msgEndSign ∉ encStr s := by
  simp only [encStr]
  intro hmem
  rcases List.mem_cons.mp hmem with h | h
  · exact absurd h (by decide)
  rcases List.mem_append.mp h with h' | h'
  · exact noNl_escStr s h'
  · simp at h'
    exact absurd h' (by decide)

mutual
/-- The terminator never occurs in an encoded value. -/
def noNlV : (v : JVal) → msgEndSign ∉ encodeVal v
  | .null => by decide
  | .bool b => by cases b <;> decide
  | .int n => noNl_encInt n
  | .str s => noNl_encStr s
  | .arr .nil => by decide
  | .arr (.cons v tl) => by
      have h1 := noNlV v
      have h2 := noNlA tl
      rw [show encodeVal (JVal.arr (JArr.cons v tl)) =
        '[' :: (encodeVal v ++ encSepItems tl) ++ [']'] from rfl]
      intro hmem
      simp only [List.cons_append, List.mem_cons, List.mem_append] at hmem
      rcases hmem with h | (h | h) | h
      · exact absurd h (by decide)
      · exact h1 h
      · exact h2 h
      · simp at h
        exact absurd h (by decide)
  | .obj .nil => by decide
  | .obj (.cons k v tl) => by
      have h1 := noNlV v
      have h2 := noNlO tl
      have h3 := noNl_encStr k
      rw [show encodeVal (JVal.obj (JObj.cons k v tl)) =
        obrace :: (encStr k ++ ':' :: ' ' :: encodeVal v ++ encSepPairs tl) ++ [cbrace]
        from rfl]
      intro hmem
      simp only [List.cons_append, List.mem_cons, List.mem_append] at hmem
      rcases hmem with h | ((h | h) | h) | h
      · exact absurd h (by decide)
      · exact h3 h
      · rcases h with h' | h' | h'
        · exact absurd h' (by decide)
        · exact absurd h' (by decide)
        · exact h1 h'
      · exact h2 h
      · simp at h
        exact absurd h (by decide)
/-- The terminator never occurs in an encoded array body. -/
def noNlA : (tl : JArr) → msgEndSign ∉ encSepItems tl
  | .nil => by simp [encSepItems]
  | .cons v tl => by
      have h1 := noNlV v
      have h2 := noNlA tl
      simp only [encSepItems]
      intro hmem
      rcases List.mem_cons.mp hmem with h | h
      · exact absurd h (by decide)
      rcases List.mem_cons.mp h with h' | h'
      · exact absurd h' (by decide)
      rcases List.mem_append.mp h' with h'' | h''
      · exact h1 h''
      · exact h2 h''
/-- The terminator never occurs in an encoded object body. -/
def noNlO : (tl : JObj) → msgEndSign ∉ encSepPairs tl
  | .nil => by simp [encSepPairs]
  | .cons k v tl => by
      have h1 := noNlV v
      have h2 := noNlO tl
      have h3 := noNl_encStr k
      simp only [encSepPairs]
      intro hmem
      rcases List.mem_cons.mp hmem with h | h
      · exact absurd h (by decide)
      rcases List.mem_cons.mp h with h' | h'
      · exact absurd h' (by decide)
      simp only [List.mem_append, List.mem_cons] at h'
      rcases h' with (h'' | h'' | h'' | h'') | h''
      · exact h3 h''
      · exact absurd h'' (by decide)
      · exact absurd h'' (by decide)
      · exact h1 h''
      · exact h2 h''
end

/-! ## Frame and loader round-trip -/

theorem splitFrame_append {p : List Char} (hp : msgEndSign ∉ p) (t : List Char) :
    splitFrame (p ++ msgEndSign :: t) = some (p, t) := by
  induction p with
  | nil => simp [splitFrame]
  | cons c cs ih =>
    have hc : ¬c = msgEndSign := fun he => hp (he ▸ List.mem_cons_self c cs)
    have hcs : msgEndSign ∉ cs := fun hm => hp (List.mem_cons_of_mem c hm)
    simp only [List.cons_append, splitFrame, if_neg hc, List.append_eq, ih hcs,
      Option.map_some']

theorem parseV_enc {v : JVal} (hok : jvalOk v = true) (rest : List Char)
    (hsep : sepOk rest = true) (f : Nat) (hf : fuelV v ≤ f) :
    parseV f (encodeVal v ++ rest) = some (v, rest) := by
  have := (roundAll f).1 [] v rest rfl hok hf hsep
  rwa [List.nil_append] at this

theorem jloads_encodeVal {v : JVal} (h : jvalOk v = true) :
    jloads (encodeVal v) = some v := by
  have hfl := fuelV_le v
  have hr := parseV_enc h [] rfl ((encodeVal v).length + 1) (by omega)
  rw [List.append_nil] at hr
  simp only [jloads, hr]
  exact rfl

theorem jloads_dump {v : JVal} (h : jvalOk v = true) :
    jloads (pmDump v) = some v := by
  have hfl := fuelV_le v
  have hr := parseV_enc h [msgEndSign] rfl ((encodeVal v ++ [msgEndSign]).length + 1)
    (by simp only [List.length_append, List.length_cons, List.length_nil]; omega)
  simp only [List.length_append] at hr
  simp only [pmDump, jloads, List.length_append, hr]
  exact rfl

/-! ## Claim C8: frame round-trip; claim C9: the ping reply bytes -/

/-- Bytes `Client.send_message` writes for one reply: the dump of the
dict literal `d` with keys `type` and `data` in that insertion order. -/
def sendMessageBytes (messageType : List Char) (messageData : JVal) : List Char :=
  pmDump (.obj (.cons "type".data (.str messageType) (.cons "data".data messageData .nil)))

/-- Bytes `Client._ping` sends: `send_message(MESSAGE, "PONG")`. -/
def pingReplyBytes : List Char := sendMessageBytes "message".data (.str "PONG".data)

/-- C8: frame round-trip. For every codec-valid value `v`,
`PumpdulerMessage.dump` appends exactly one terminator byte `0x0A` after
the encoded payload (which never contains that byte), splitting the
frame at the terminator recovers the payload exactly, and decoding the
payload (with the terminator stripped) yields `v` again; decoding the
raw frame also yields `v`, since the decoder tolerates trailing
whitespace. -/
theorem frame_roundtrip (v : JVal) (h : jvalOk v = true) :
    pmDump v = encodeVal v ++ [msgEndSign] ∧
    msgEndSign ∉ encodeVal v ∧
    splitFrame (pmDump v) = some (encodeVal v, []) ∧
    pmLoad (encodeVal v) = some v ∧
    pmLoad (pmDump v) = some v := by
  refine ⟨rfl, noNlV v, ?_, jloads_encodeVal h, jloads_dump h⟩
  simpa [pmDump] using splitFrame_append (noNlV v) []

/-- Concrete codec-valid value exercising objects, arrays, negative
integers and string escapes. -/
def jWitnessVal : JVal :=
  .obj (.cons ['o', 'k']
    (.arr (.cons (.int (-12)) (.cons (.str ['h', '\n', Char.ofNat 233]) .nil))) .nil)

/-- Witness for C8: the hypotheses of `frame_roundtrip` hold at
`jWitnessVal` and the round-trip follows by applying the theorem. -/
theorem frame_roundtrip_witness :
    jvalOk jWitnessVal = true ∧
    (pmDump jWitnessVal = encodeVal jWitnessVal ++ [msgEndSign] ∧
     msgEndSign ∉ encodeVal jWitnessVal ∧
     splitFrame (pmDump jWitnessVal) = some (encodeVal jWitnessVal, []) ∧
     pmLoad (encodeVal jWitnessVal) = some jWitnessVal ∧
     pmLoad (pmDump jWitnessVal) = some jWitnessVal) :=
  ⟨by decide, frame_roundtrip jWitnessVal (by decide)⟩

/-- Counterexample to C9 as stated: the server's ping reply is not the
byte string `{"type":"message","data":"PONG"}` followed by `0x0A` —
`json.dumps` uses the default separators `", "` and `": "`, so the
actual bytes contain spaces after the colons and the comma. -/
theorem pingReply_not_compact :
    pingReplyBytes ≠ "\x7b\"type\":\"message\",\"data\":\"PONG\"\x7d\n".data := by
  decide

/-- C9 (amended): processing `{"action": "ping"}` sends over the session's
socket exactly the bytes `{"type": "message", "data": "PONG"}` (with the
spaces `json.dumps` inserts after `:` and `,`) followed by one `0x0A`
byte, and nothing else. -/
theorem pingReply_bytes_exact :
    pingReplyBytes = "\x7b\"type\": \"message\", \"data\": \"PONG\"\x7d\n".data := by
  decide

/-! ## Scheduler: `time_event_manager.py` and `time_event_executor.py` -/

/-- Immutable record from `time_event.py`: a scheduled broadcast. The
`id` is the `uuid4().hex` value, modelled as a number chosen at
creation; `exec_timestamp` and `timestamp` are modelled as integers. -/
structure TimeEvent where
  id : Nat
  channel : JVal
  exec_timestamp : Int
  data : JVal
  timestamp : Int

/-- State of a `TimeEventExecutor`: the id of the bound time event and
its `_is_skipped` flag (`skip()` sets it). -/
structure ExecutorState where
  time_event_id : Nat
  is_skipped : Bool

/-- State of a `TimeEventManager`: the `_time_events` list (kept sorted
by execution timestamp) and the current `_executor` (if any was ever
created). -/
structure TimeEventManagerState where
  time_events : List TimeEvent
  executor : Option ExecutorState

/-- `TimeEventManager.get_event`: the event at index 0, if any. -/
def get_event (s : TimeEventManagerState) : Option TimeEvent := s.time_events.head?

/-- `TimeEventManager._update_executor`: if an executor exists and is
bound to the current head, keep it; otherwise skip the old executor and
start a new one for the head (when a head exists). -/
def update_executor (s : TimeEventManagerState) : TimeEventManagerState :=
  match get_event s with
  | some h =>
    match s.executor with
    | some ex =>
      if ex.time_event_id = h.id then s
      else { s with executor := some ⟨h.id, false⟩ }
    | none => { s with executor := some ⟨h.id, false⟩ }
  | none =>
    match s.executor with
    | some ex => { s with executor := some { ex with is_skipped := true } }
    | none => s

/-- `TimeEventManager.add_event`: append the new event, stable-sort by
execution timestamp (Python's `list.sort` and `List.mergeSort` are both
stable), then update the executor. -/
def add_event (s : TimeEventManagerState) (e : TimeEvent) : TimeEventManagerState :=
  update_executor { s with time_events :=
    (s.time_events ++ [e]).mergeSort (fun a b => decide (a.exec_timestamp ≤ b.exec_timestamp)) }

/-- `TimeEventManager._broadcast` invoked by a firing executor for event
`e`: only if the stored head exists and carries `e`'s id does anything
happen; a failing channel broadcast (`sendFails`) is caught and leaves
the list unchanged; on success the head is popped and the executor
updated. -/
def broadcast_step (s : TimeEventManagerState) (e : TimeEvent) (sendFails : Bool) :
    TimeEventManagerState :=
  match get_event s with
  | none => s
  | some h =>
    if h.id = e.id then
      if sendFails then s
      else update_executor { s with time_events := s.time_events.tail }
    else s

/-- Scheduler binding invariant: a non-empty sequence has an executor
bound to the head's id; an empty sequence has no armed (non-skipped)
executor. -/
def SchedInv (s : TimeEventManagerState) : Prop :=
  (∀ h, s.time_events.head? = some h →
    ∃ ex, s.executor = some ex ∧ ex.time_event_id = h.id) ∧
  (s.time_events = [] → ∀ ex, s.executor = some ex → ex.is_skipped = true)

theorem schedInv_update_executor (s : TimeEventManagerState) :
    SchedInv (update_executor s) := by
  rcases hev : s.time_events.head? with _ | h <;> rcases hex : s.executor with _ | ex
  · simp only [update_executor, get_event, hev, hex]
    constructor
    · intro h hh
      rw [hev] at hh
      exact absurd hh (by simp)
    · intro _ ex' hx
      rw [hex] at hx
      exact absurd hx (by simp)
  · simp only [update_executor, get_event, hev, hex]
    constructor
    · intro h hh
      simp only at hh
      rw [hev] at hh
      exact absurd hh (by simp)
    · intro _ ex' hx
      simp only [Option.some.injEq] at hx
      rw [← hx]
  · simp only [update_executor, get_event, hev, hex]
    constructor
    · intro h' hh
      simp only at hh
      rw [hev] at hh
      refine ⟨⟨h.id, false⟩, rfl, ?_⟩
      simp only [Option.some.injEq] at hh
      rw [hh]
    · intro hemp
      simp only at hemp
      rw [hemp] at hev
      exact absurd hev (by simp)
  · by_cases hid : ex.time_event_id = h.id
    · simp only [update_executor, get_event, hev, hex, hid, if_true]
      constructor
      · intro h' hh
        rw [hev] at hh
        simp only [Option.some.injEq] at hh
        exact ⟨ex, hex, by rw [hid, hh]⟩
      · intro hemp
        rw [hemp] at hev
        exact absurd hev (by simp)
    · simp only [update_executor, get_event, hev, hex, hid, if_false]
      constructor
      · intro h' hh
        simp only at hh
        rw [hev] at hh
        simp only [Option.some.injEq] at hh
        exact ⟨⟨h.id, false⟩, rfl, by rw [hh]⟩
      · intro hemp
        simp only at hemp
        rw [hemp] at hev
        exact absurd hev (by simp)

theorem update_executor_events (s : TimeEventManagerState) :
    (update_executor s).time_events = s.time_events := by
  unfold update_executor
  rcases hev : get_event s with _ | h
  · rcases hex : s.executor with _ | ex <;> simp [hex]
  · rcases hex : s.executor with _ | ex
    · simp [hex]
    · simp only [hex]
      by_cases hid : ex.time_event_id = h.id <;> simp [hid]

/-- C1: scheduler head/timer binding invariant. After every `add_event`
(from any prior state), and after every timer firing that runs
`_broadcast` to completion from a state satisfying the invariant, a
non-empty sequence implies the current executor exists and is bound to
the id of the event at position 0, and an empty sequence leaves no
armed (non-skipped) executor. -/
theorem scheduler_head_binding :
    (∀ (s : TimeEventManagerState) (e : TimeEvent), SchedInv (add_event s e)) ∧
    (∀ (s : TimeEventManagerState) (e : TimeEvent) (sendFails : Bool),
      SchedInv s → SchedInv (broadcast_step s e sendFails)) := by
  constructor
  · intro s e
    exact schedInv_update_executor _
  · intro s e sendFails hinv
    unfold broadcast_step
    rcases hev : get_event s with _ | h
    · exact hinv
    · by_cases hid : h.id = e.id
      · cases sendFails with
        | true => simpa [hid] using hinv
        | false =>
          simp only [hid, if_true, if_false, Bool.false_eq_true]
          exact schedInv_update_executor _
      · simpa [hid] using hinv

/-- Concrete time event used in scheduler witnesses. -/
def witnessEvent : TimeEvent := ⟨0, .null, 0, .null, 0⟩

/-- Witness for C1: apply the binding theorem from the empty initial
state, discharging the invariant hypothesis there. -/
theorem scheduler_head_binding_witness :
    SchedInv (add_event ⟨[], none⟩ witnessEvent) ∧
    SchedInv (broadcast_step ⟨[], none⟩ witnessEvent true) := by
  have hinv : SchedInv ⟨[], none⟩ := by
    constructor
    · intro h hh
      exact absurd hh (by simp)
    · intro _ ex hx
      exact absurd hx (by simp)
  exact ⟨scheduler_head_binding.1 ⟨[], none⟩ witnessEvent,
    scheduler_head_binding.2 ⟨[], none⟩ witnessEvent true hinv⟩

/-- C2: fire semantics of `_broadcast`. If the head is missing or its id
differs from the firing event's, the state is unchanged; if the head
matches and the channel broadcast raises, the state is unchanged (the
event stays at position 0); if it matches and the broadcast succeeds,
exactly the head is removed and the executor is re-selected for the new
head. -/
theorem broadcast_fire_semantics (s : TimeEventManagerState) (e : TimeEvent)
    (sendFails : Bool) :
    ((∀ h, s.time_events.head? = some h → h.id ≠ e.id) →
      broadcast_step s e sendFails = s) ∧
    (∀ h, s.time_events.head? = some h → h.id = e.id →
      (sendFails = true → broadcast_step s e sendFails = s) ∧
      (sendFails = false →
        (broadcast_step s e sendFails).time_events = s.time_events.tail ∧
        ∀ h₂, s.time_events.tail.head? = some h₂ →
          ∃ ex, (broadcast_step s e sendFails).executor = some ex ∧
            ex.time_event_id = h₂.id)) := by
  constructor
  · intro hne
    unfold broadcast_step
    rcases hev : get_event s with _ | h
    · rfl
    · exact if_neg (hne h hev)
  · intro h hh hid
    constructor
    · intro hb
      subst hb
      unfold broadcast_step
      rw [show get_event s = some h from hh]
      exact (if_pos hid).trans (if_pos rfl)
    · intro hb
      subst hb
      have hred : broadcast_step s e false =
          update_executor { s with time_events := s.time_events.tail } := by
        unfold broadcast_step
        rw [show get_event s = some h from hh]
        exact (if_pos hid).trans (if_neg (by simp))
      rw [hred]
      refine ⟨update_executor_events _, ?_⟩
      intro h₂ hh₂
      exact (schedInv_update_executor _).1 h₂ (by rw [update_executor_events]; exact hh₂)

/-- Witness for C2: apply the fire-semantics theorem at a singleton
queue whose head is the firing event, on the success path. -/
theorem broadcast_fire_semantics_witness :
    (broadcast_step ⟨[witnessEvent], some ⟨0, false⟩⟩ witnessEvent false).time_events =
      ([witnessEvent] : List TimeEvent).tail :=
  (((broadcast_fire_semantics ⟨[witnessEvent], some ⟨0, false⟩⟩ witnessEvent false).2
      witnessEvent rfl rfl).2 rfl).1

/-! ## Channels, channel manager, client dispatch (`channel.py`,
`channel_manager.py`, `client.py`, `client_manager.py`) -/

/-- Python exception kinds the modelled code can raise. -/
inductive PyErr : Type where
  | valueError : PyErr
  | keyError : PyErr
  | typeError : PyErr
deriving DecidableEq

/-- `Channel.broadcast`: iterate the subscribers in order calling
`send_message` on each; `sendOk` says whether a given client's send
succeeds. Returns the clients actually sent to and the client whose
send raised, if any (the loop has no try/except, so the first failure
stops the iteration and the exception propagates). -/
def channel_broadcast (sendOk : Nat → Bool) : List Nat → List Nat × Option Nat
  | [] => ([], none)
  | c :: cs =>
    if sendOk c then
      let p := channel_broadcast sendOk cs
      (c :: p.1, p.2)
    else ([], some c)

/-- Hashable channel names: the JSON values Python can use as dict keys
(lists and dicts are unhashable). -/
inductive HKey : Type where
  | null : HKey
  | bool (b : Bool) : HKey
  | int (n : Int) : HKey
  | str (s : List Char) : HKey
deriving DecidableEq

/-- Conversion of a decoded value to a dict key; `none` models the
`TypeError: unhashable type` Python raises for lists and dicts. -/
def toHKey : JVal → Option HKey
  | .null => some .null
  | .bool b => some (.bool b)
  | .int n => some (.int n)
  | .str s => some (.str s)
  | .arr _ => none
  | .obj _ => none

/-- `ChannelManager._channels`: an insertion-ordered map from channel
name to that channel's subscriber list (sessions as numbers). -/
abbrev ChannelMap := List (HKey × List Nat)

/-- Dictionary lookup on the channel map. -/
def lookupChannel : ChannelMap → HKey → Option (List Nat)
  | [], _ => none
  | (k', l) :: tl, k => if k' = k then some l else lookupChannel tl k

/-- `ChannelManager.subscribe`: create the channel at the end of the
map if absent, then `Channel.subscribe` appends the client. -/
def cm_subscribe (cm : ChannelMap) (name : HKey) (c : Nat) : ChannelMap :=
  match lookupChannel cm name with
  | some _ => cm.map (fun p => if p.1 = name then (p.1, p.2 ++ [c]) else p)
  | none => cm ++ [(name, [c])]

/-- `Channel.unsubscribe`: `list.remove` of the first occurrence, which
raises `ValueError` when the client is absent. -/
def chan_unsubscribe (clients : List Nat) (c : Nat) : Except PyErr (List Nat) :=
  if c ∈ clients then .ok (clients.erase c) else .error .valueError

/-- `ChannelManager.unsubscribe`: missing channels are ignored; an
existing channel delegates (possibly raising), and a channel left empty
is popped from the map. -/
def cm_unsubscribe (cm : ChannelMap) (name : HKey) (c : Nat) : Except PyErr ChannelMap :=
  match lookupChannel cm name with
  | none => .ok cm
  | some l =>
    match chan_unsubscribe l c with
    | .error e => .error e
    | .ok l' =>
      if l'.length = 0 then .ok (cm.filter (fun p => !decide (p.1 = name)))
      else .ok (cm.map (fun p => if p.1 = name then (p.1, l') else p))

/-- `ChannelManager.get_subscribed_channels`: names of the channels
whose subscriber list contains the client, in map order. -/
def subscribed_channels (cm : ChannelMap) (c : Nat) : List HKey :=
  (cm.filter (fun p => decide (c ∈ p.2))).map Prod.fst

/-- The unsubscribe loop of `ClientManager._remove_client`, over a list
of channel names; an exception stops the loop and propagates. -/
def unsub_all (c : Nat) : List HKey → ChannelMap → Except PyErr ChannelMap
  | [], cm => .ok cm
  | k :: ks, cm =>
    match cm_unsubscribe cm k c with
    | .ok cm' => unsub_all c ks cm'
    | .error e => .error e

/-- Channel cleanup performed by `ClientManager._remove_client`. -/
def remove_client_channels (cm : ChannelMap) (c : Nat) : Except PyErr ChannelMap :=
  unsub_all c (subscribed_channels cm c) cm

/-- Observable effect of one dispatched request (sends are modelled as
succeeding; the scheduler call is recorded, not executed). -/
inductive ServerAction : Type where
  | pong : ServerAction
  | info : ServerAction
  | subscribed (channel : HKey) : ServerAction
  | unsubscribed (channel : HKey) : ServerAction
  | published (channel : HKey) (data : JVal) : ServerAction
  | timeEventAdded (channel exec_ts data : JVal) : ServerAction
  | unknownAction (action : JVal) : ServerAction

/-- Python dict lookup on a decoded JSON object: later duplicate keys
overwrite earlier ones, so the last binding wins. -/
def lookupKeyLast : JObj → List Char → Option JVal
  | .nil, _ => none
  | .cons k' v tl, k =>
    match lookupKeyLast tl k with
    | some r => some r
    | none => if k' = k then some v else none

/-- `Client.process_message`: read `data['action']` (KeyError when the
key is missing, TypeError when `data` is not a dict), dispatch the six
known actions — checking, as `func(**data)` does, that required
parameters are present (TypeError otherwise) — and answer any other
hashable action value with an `error_message` reply; an unhashable
action value (an array or a dict) makes the membership test
`action in self.action_func_mapping` itself raise TypeError. -/
def process_message (cm : ChannelMap) (sid : Nat) (data : JVal) :
    Except PyErr (ChannelMap × ServerAction) :=
  match data with
  | .obj d =>
    match lookupKeyLast d "action".data with
    | none => .error .keyError
    | some a =>
      match a with
      | .str s =>
        if s = "ping".data then .ok (cm, .pong)
        else if s = "subscribe".data then
          match lookupKeyLast d "channel_name".data with
          | none => .error .typeError
          | some chv =>
            match toHKey chv with
            | none => .error .typeError
            | some k => .ok (cm_subscribe cm k sid, .subscribed k)
        else if s = "unsubscribe".data then
          match lookupKeyLast d "channel_name".data with
          | none => .error .typeError
          | some chv =>
            match toHKey chv with
            | none => .error .typeError
            | some k =>
              match cm_unsubscribe cm k sid with
              | .error e => .error e
              | .ok cm' => .ok (cm', .unsubscribed k)
        else if s = "info".data then .ok (cm, .info)
        else if s = "publish".data then
          match lookupKeyLast d "channel_name".data, lookupKeyLast d "data".data with
          | some chv, some dv =>
            match toHKey chv with
            | none => .error .typeError
            | some k => .ok (cm, .published k dv)
          | _, _ => .error .typeError
        else if s = "add_time_event".data then
          match lookupKeyLast d "channel_name".data, lookupKeyLast d "exec_timestamp".data,
              lookupKeyLast d "data".data with
          | some chv, some tv, some dv => .ok (cm, .timeEventAdded chv tv dv)
          | _, _, _ => .error .typeError
        else .ok (cm, .unknownAction (.str s))
      | .arr _ => .error .typeError
      | .obj _ => .error .typeError
      | _ => .ok (cm, .unknownAction a)
  | _ => .error .typeError

/-- Outcome of handling one complete frame in `ClientManager._handle`. -/
inductive FrameOutcome : Type where
  | dropped : FrameOutcome
  | processed (cm : ChannelMap) (act : ServerAction) : FrameOutcome
  | crashed (e : PyErr) : FrameOutcome

/-- One complete frame in `_handle`'s inner loop: a payload that fails
to decode is logged and dropped (the `except ValueError` around `load`),
the loop continuing; a decoded payload is passed to `process_message`,
whose exceptions are not caught anywhere in `_handle` — they escape and
end the handler thread. -/
def handle_frame (cm : ChannelMap) (sid : Nat) (payload : List Char) : FrameOutcome :=
  match pmLoad payload with
  | none => .dropped
  | some v =>
    match process_message cm sid v with
    | .ok (cm', act) => .processed cm' act
    | .error e => .crashed e

/-! ## Admission control (`client_manager.py`, `server.py`, `config.py`) -/

/-- `config.MAX_CLIENTS`. -/
def MAX_CLIENTS : Nat := 512

/-- Admission-relevant state of `ClientManager` and `Server`: the live
client list and the `accept_connections_event` flag. -/
structure AdmissionState where
  clients : List Nat
  accept_gate : Bool

/-- `ClientManager.add_client`: append the client, then clear the gate
exactly when the count has reached `MAX_CLIENTS`. -/
def add_client (s : AdmissionState) (c : Nat) : AdmissionState :=
  let cl := s.clients ++ [c]
  { clients := cl,
    accept_gate := if cl.length = MAX_CLIENTS then false else s.accept_gate }

/-- The admission part of `ClientManager._remove_client`: remove the
client, then set the gate if the count is below `MAX_CLIENTS` and the
gate was clear. -/
def remove_client (s : AdmissionState) (c : Nat) : AdmissionState :=
  let cl := s.clients.erase c
  { clients := cl,
    accept_gate := if cl.length < MAX_CLIENTS then true else s.accept_gate }

/-- Steps the admission state can take: the accept loop only calls
`add_client` after the gate let it through, and `_remove_client` is
called for a live client. -/
inductive AdmissionStep : AdmissionState → AdmissionState → Prop where
  | add {s : AdmissionState} (c : Nat) (hgate : s.accept_gate = true) :
      AdmissionStep s (add_client s c)
  | remove {s : AdmissionState} (c : Nat) (hmem : c ∈ s.clients) :
      AdmissionStep s (remove_client s c)

/-- Admission invariant: never more than `MAX_CLIENTS` live clients, and
the gate is clear exactly when the count equals `MAX_CLIENTS`. -/
def AdmissionInv (s : AdmissionState) : Prop :=
  s.clients.length ≤ MAX_CLIENTS ∧
    (s.accept_gate = false ↔ s.clients.length = MAX_CLIENTS)

/-! ## Claims C3, C5, C7, C10 -/

/-- Counterexample to C3 as stated: with subscribers `[1, 2]` where
client 1's send raises, `Channel.broadcast` delivers to nobody else —
client 2 is not sent the message — and the exception propagates out of
the loop (there is no try/except in `Channel.broadcast`). -/
theorem channel_broadcast_abort :
    (channel_broadcast (fun c => decide (c ≠ 1)) [1, 2]).2 = some 1 ∧
    2 ∉ (channel_broadcast (fun c => decide (c ≠ 1)) [1, 2]).1 := by
  exact ⟨rfl, by decide⟩

/-- C3 (amended): an exception raised by `send_message` for one
subscriber aborts the iteration: the subscribers before the failing one
have been sent the message, the failing subscriber's exception
propagates out of `broadcast`, and no subscriber after it is sent. -/
theorem channel_broadcast_stops_at_failure (sendOk : Nat → Bool) :
    ∀ pre c post, (∀ x ∈ pre, sendOk x = true) → sendOk c = false →
      channel_broadcast sendOk (pre ++ c :: post) = (pre, some c) := by
  intro pre
  induction pre with
  | nil =>
    intro c post _ hc
    simp [channel_broadcast, hc]
  | cons p ps ih =>
    intro c post hall hc
    have hp : sendOk p = true := hall p (by simp)
    simp only [List.cons_append, channel_broadcast, hp, if_true, List.append_eq]
    rw [ih c post (fun x hx => hall x (by simp [hx])) hc]

/-- Witness for the amended C3, at subscribers `[0, 1, 2]` where exactly
client 1's send raises: client 0 was sent, the loop stops at 1. -/
theorem channel_broadcast_stops_at_failure_witness :
    channel_broadcast (fun c => decide (c ≠ 1)) ([0] ++ 1 :: [2]) = ([0], some 1) :=
  channel_broadcast_stops_at_failure _ [0] 1 [2] (by decide) (by decide)

/-- Counterexample to C5 as stated: a session (2) that never subscribed
to channel `ch` sends an unsubscribe for it; the handler does not log
and continue — `list.remove` raises `ValueError`, which the read loop's
`except ValueError` (guarding only frame decoding) does not cover, so
the handler thread crashes. -/
theorem unsubscribe_nonmember_crashes_handler :
    handle_frame [(HKey.str "ch".data, [1])] 2
      "\x7b\"action\": \"unsubscribe\", \"channel_name\": \"ch\"\x7d".data =
      .crashed .valueError := rfl

/-- C5 (amended): unsubscribing a session that is not in the channel's
subscriber list raises `ValueError` out of `Channel.unsubscribe` and
`ChannelManager.unsubscribe`; the subscriber list is not modified by the
failed call, no reply is produced, and the exception escapes the read
loop (whose only handler covers decode errors), ending the session's
handler instead of leaving it running. -/
theorem unsubscribe_nonmember (cm : ChannelMap) (name : HKey) (sid : Nat)
    (l : List Nat) (payload : List Char) (d : JObj) (chv : JVal)
    (hload : pmLoad payload = some (JVal.obj d))
    (ha : lookupKeyLast d "action".data = some (.str "unsubscribe".data))
    (hc : lookupKeyLast d "channel_name".data = some chv)
    (hk : toHKey chv = some name)
    (hl : lookupChannel cm name = some l) (hmem : sid ∉ l) :
    chan_unsubscribe l sid = .error .valueError ∧
    cm_unsubscribe cm name sid = .error .valueError ∧
    handle_frame cm sid payload = .crashed .valueError := by
  have h1 : chan_unsubscribe l sid = .error .valueError := by
    simp [chan_unsubscribe, hmem]
  have h2 : cm_unsubscribe cm name sid = .error .valueError := by
    simp [cm_unsubscribe, hl, h1]
  have h3 : process_message cm sid (.obj d) = .error .valueError := by
    simp [process_message, ha, hc, hk, h2]
  simp [handle_frame, hload, h3, h1, h2]

/-- Witness for the amended C5 at the concrete state and frame of the
counterexample. -/
theorem unsubscribe_nonmember_witness :
    chan_unsubscribe [1] 2 = .error .valueError ∧
    cm_unsubscribe [(HKey.str "ch".data, [1])] (HKey.str "ch".data) 2 =
      .error .valueError ∧
    handle_frame [(HKey.str "ch".data, [1])] 2
      "\x7b\"action\": \"unsubscribe\", \"channel_name\": \"ch\"\x7d".data =
      .crashed .valueError :=
  unsubscribe_nonmember [(HKey.str "ch".data, [1])] (HKey.str "ch".data) 2 [1] _ _
    (JVal.str "ch".data) rfl rfl rfl rfl rfl (by decide)

/-- C10: `ChannelManager.unsubscribe` on a name with no channel returns
normally, raising nothing and leaving the channel map unchanged. -/
theorem cm_unsubscribe_missing_channel (cm : ChannelMap) (name : HKey) (c : Nat)
    (h : lookupChannel cm name = none) : cm_unsubscribe cm name c = .ok cm := by
  simp [cm_unsubscribe, h]

/-- Witness for C10 on a concrete one-channel map and a missing name. -/
theorem cm_unsubscribe_missing_channel_witness :
    cm_unsubscribe [(HKey.str "a".data, [7])] (HKey.str "b".data) 7 =
      .ok [(HKey.str "a".data, [7])] :=
  cm_unsubscribe_missing_channel _ _ 7 rfl

/-- C7: admission invariant. It holds initially (no clients, gate set),
and is preserved by every `add_client` taken with the gate set and every
`_remove_client` of a live client: the live count never exceeds
`MAX_CLIENTS` and the gate is clear exactly when the count equals
`MAX_CLIENTS`. -/
theorem admission_invariant :
    AdmissionInv ⟨[], true⟩ ∧
    ∀ s s', AdmissionInv s → AdmissionStep s s' → AdmissionInv s' := by
  constructor
  · exact ⟨by simp [MAX_CLIENTS], by simp [MAX_CLIENTS]⟩
  · intro s s' hinv hstep
    obtain ⟨hle, hiff⟩ := hinv
    rcases hstep with ⟨c, hgate⟩ | ⟨c, hmem⟩
    · have hne : s.clients.length ≠ MAX_CLIENTS := by
        intro h
        rw [hiff.mpr h] at hgate
        exact absurd hgate (by simp)
      constructor
      · simp only [add_client, List.length_append, List.length_cons, List.length_nil]
        omega
      · simp only [add_client, List.length_append, List.length_cons, List.length_nil]
        by_cases hlen : s.clients.length + 1 = MAX_CLIENTS
        · simp [hlen]
        · simp only [hlen, if_neg, if_false]
          rw [hgate]
          simp [hlen]
    · have hpos : 1 ≤ s.clients.length :=
        List.length_pos.mpr (List.ne_nil_of_mem hmem)
      have hlen : (s.clients.erase c).length = s.clients.length - 1 :=
        List.length_erase_of_mem hmem
      have hmax : 1 ≤ MAX_CLIENTS := by norm_num [MAX_CLIENTS]
      constructor
      · simp only [remove_client, hlen]
        omega
      · simp only [remove_client, hlen]
        have hlt : s.clients.length - 1 < MAX_CLIENTS := by omega
        simp only [hlt, if_pos, if_true]
        constructor
        · intro h
          exact absurd h (by simp)
        · intro h
          omega

/-- Witness for C7: one admitted client from the initial state. -/
theorem admission_invariant_witness : AdmissionInv (add_client ⟨[], true⟩ 0) :=
  admission_invariant.2 ⟨[], true⟩ _ admission_invariant.1
    (AdmissionStep.add 0 rfl)

/-! ## Claim C4 -/

/-- Action values `Client.action_func_mapping` knows. -/
def isKnownAction (a : JVal) : Bool :=
  match a with
  | .str s => s = "ping".data || s = "subscribe".data || s = "unsubscribe".data ||
      s = "info".data || s = "publish".data || s = "add_time_event".data
  | _ => false

/-- Counterexample to C4 as stated: the empty dict `{}` decodes fine,
but `process_message` does `data['action']` and the missing key raises
`KeyError`, which the read loop does not catch — the handler crashes
instead of continuing. -/
theorem process_empty_dict_crashes :
    handle_frame [] 0 "\x7b\x7d".data = .crashed .keyError := rfl

/-- C4 (amended): for decoded dicts, a missing `action` key raises
`KeyError` out of the read loop; an unknown hashable action value (a
string outside the verb table, or a non-string scalar) is answered with
an `error_message` reply without raising; an unhashable action value
(an array or a dict) raises `TypeError` from the membership test
`action in self.action_func_mapping`, escaping the read loop; a known
action with a required field missing (here: `subscribe` without
`channel_name`) raises `TypeError` out of the read loop; and a payload
that fails to decode is dropped with the session continuing. -/
theorem process_message_protocol (cm : ChannelMap) (sid : Nat) :
    (∀ d, lookupKeyLast d "action".data = none →
      process_message cm sid (JVal.obj d) = .error .keyError) ∧
    (∀ d a, lookupKeyLast d "action".data = some a → isKnownAction a = false →
      (toHKey a).isSome = true →
      process_message cm sid (JVal.obj d) = .ok (cm, .unknownAction a)) ∧
    (∀ d a, lookupKeyLast d "action".data = some a → toHKey a = none →
      process_message cm sid (JVal.obj d) = .error .typeError) ∧
    (∀ d, lookupKeyLast d "action".data = some (.str "subscribe".data) →
      lookupKeyLast d "channel_name".data = none →
      process_message cm sid (JVal.obj d) = .error .typeError) ∧
    (∀ payload, pmLoad payload = none → handle_frame cm sid payload = .dropped) := by
  refine ⟨?_, ?_, ?_, ?_, ?_⟩
  · intro d h
    simp [process_message, h]
  · intro d a ha hk hh
    match a with
    | .str s =>
      simp only [isKnownAction, Bool.or_eq_false_iff, decide_eq_false_iff_not] at hk
      obtain ⟨⟨⟨⟨⟨k1, k2⟩, k3⟩, k4⟩, k5⟩, k6⟩ := hk
      simp [process_message, ha, k1, k2, k3, k4, k5, k6]
    | .null => simp [process_message, ha]
    | .bool b => simp [process_message, ha]
    | .int n => simp [process_message, ha]
    | .arr xs => exact absurd hh (by simp [toHKey])
    | .obj ms => exact absurd hh (by simp [toHKey])
  · intro d a ha hh
    match a with
    | .arr xs => simp [process_message, ha]
    | .obj ms => simp [process_message, ha]
    | .str s => exact absurd hh (by simp [toHKey])
    | .null => exact absurd hh (by simp [toHKey])
    | .bool b => exact absurd hh (by simp [toHKey])
    | .int n => exact absurd hh (by simp [toHKey])
  · intro d ha hc
    simp [process_message, ha, hc]
  · intro payload h
    simp [handle_frame, h]

/-- Witness for the amended C4 at concrete requests, covering the
missing-key, unknown-string, unknown-scalar, unhashable, missing-field
and undecodable-frame cases. -/
theorem process_message_protocol_witness :
    process_message [] 0 (JVal.obj .nil) = .error .keyError ∧
    process_message [] 0 (JVal.obj (.cons "action".data (.str "nope".data) .nil)) =
      .ok ([], .unknownAction (.str "nope".data)) ∧
    process_message [] 0 (JVal.obj (.cons "action".data (.int 5) .nil)) =
      .ok ([], .unknownAction (.int 5)) ∧
    process_message [] 0 (JVal.obj (.cons "action".data (.arr .nil) .nil)) =
      .error .typeError ∧
    process_message [] 0 (JVal.obj (.cons "action".data (.str "subscribe".data) .nil)) =
      .error .typeError ∧
    handle_frame [] 0 "x".data = .dropped :=
  ⟨(process_message_protocol [] 0).1 .nil rfl,
   (process_message_protocol [] 0).2.1 _ _ rfl (by decide) rfl,
   (process_message_protocol [] 0).2.1 _ _ rfl (by decide) rfl,
   (process_message_protocol [] 0).2.2.1 _ _ rfl rfl,
   (process_message_protocol [] 0).2.2.2.1 _ rfl rfl,
   (process_message_protocol [] 0).2.2.2.2 _ rfl⟩

/-! ## Claim C6: channel cleanup on client removal -/

theorem lookupChannel_of_mem {cm : ChannelMap} {p : HKey × List Nat} (hp : p ∈ cm) :
    ∃ l, lookupChannel cm p.1 = some l := by
  induction cm with
  | nil => exact absurd hp (List.not_mem_nil _)
  | cons q tl ih =>
    rcases List.mem_cons.mp hp with h | h
    · subst h
      exact ⟨p.2, by simp [lookupChannel]⟩
    · by_cases hq : q.1 = p.1
      · exact ⟨q.2, by simp [lookupChannel, hq]⟩
      · obtain ⟨l, hl⟩ := ih h
        exact ⟨l, by simp [lookupChannel, hq, hl]⟩

theorem mem_of_lookupChannel {cm : ChannelMap} {k : HKey} {l : List Nat}
    (h : lookupChannel cm k = some l) : (k, l) ∈ cm := by
  induction cm with
  | nil => exact absurd h (by simp [lookupChannel])
  | cons q tl ih =>
    by_cases hq : q.1 = k
    · simp only [lookupChannel, hq, if_pos, if_true, Option.some.injEq] at h
      have hkl : (k, l) = q := by
        rw [← hq, ← h]
      rw [hkl]
      exact List.mem_cons_self _ _
    · simp only [lookupChannel, hq, if_false, if_neg hq] at h
      exact List.mem_cons_of_mem _ (ih h)

theorem lookupChannel_filter_ne {cm : ChannelMap} {k name : HKey} (hne : k ≠ name) :
    lookupChannel (cm.filter (fun p => !decide (p.1 = name))) k = lookupChannel cm k := by
  induction cm with
  | nil => rfl
  | cons q tl ih =>
    by_cases hq : q.1 = name
    · have hnk2 : (name = k) = False := eq_false (fun he => hne he.symm)
      simp [List.filter_cons, hq, lookupChannel, hnk2, ih]
    · by_cases hqk : q.1 = k
      · have hkn : (k = name) = False := eq_false hne
        simp [List.filter_cons, hq, lookupChannel, hqk, hkn]
      · simp [List.filter_cons, hq, lookupChannel, hqk, ih]

theorem mapEntry_keys {name : HKey} {l' : List Nat} :
    ∀ cm : ChannelMap,
      ((cm.map (fun p => if p.1 = name then (p.1, l') else p)).map Prod.fst) =
        cm.map Prod.fst := by
  intro cm
  induction cm with
  | nil => rfl
  | cons q tl ih =>
    by_cases hq : q.1 = name <;> simp [hq, ih]

theorem lookupChannel_mapEntry_ne {cm : ChannelMap} {k name : HKey} {l' : List Nat}
    (hne : k ≠ name) :
    lookupChannel (cm.map (fun p => if p.1 = name then (p.1, l') else p)) k =
      lookupChannel cm k := by
  induction cm with
  | nil => rfl
  | cons q tl ih =>
    simp only [List.map_cons]
    by_cases hq : q.1 = name
    · rw [show (if q.1 = name then (q.1, l') else q) = (q.1, l') from if_pos hq]
      by_cases hqk : q.1 = k
      · exact absurd (hqk ▸ hq) hne
      · simp [lookupChannel, hqk, ih]
    · rw [show (if q.1 = name then (q.1, l') else q) = q from if_neg hq]
      by_cases hqk : q.1 = k <;> simp [lookupChannel, hqk, ih]

theorem mem_mapEntry {cm : ChannelMap} {name : HKey} {l' : List Nat}
    {p : HKey × List Nat}
    (hp : p ∈ cm.map (fun p => if p.1 = name then (p.1, l') else p)) :
    (p.1 = name ∧ p.2 = l') ∨ (p ∈ cm ∧ ¬p.1 = name) := by
  obtain ⟨x, hx, hxe⟩ := List.mem_map.mp hp
  by_cases hxn : x.1 = name
  · left
    rw [if_pos hxn] at hxe
    rw [← hxe]
    exact ⟨hxn, rfl⟩
  · right
    rw [if_neg hxn] at hxe
    rw [← hxe]
    exact ⟨hx, hxn⟩

theorem unsub_all_clean (c : Nat) :
    ∀ (L : List HKey) (cm : ChannelMap),
      (cm.map Prod.fst).Nodup → L.Nodup →
      (∀ p ∈ cm, p.2.count c ≤ 1) →
      (∀ p ∈ cm, c ∈ p.2 → p.1 ∈ L) →
      (∀ k ∈ L, ∀ l, lookupChannel cm k = some l → c ∈ l) →
      ∃ cm', unsub_all c L cm = .ok cm' ∧ ∀ p ∈ cm', c ∉ p.2 := by
  intro L
  induction L with
  | nil =>
    intro cm _ _ _ hcov _
    refine ⟨cm, rfl, ?_⟩
    intro p hp hcp
    exact absurd (hcov p hp hcp) (List.not_mem_nil _)
  | cons k ks ih =>
    intro cm hnd hLnd hcnt hcov hin
    have hknotks : k ∉ ks := (List.nodup_cons.mp hLnd).1
    have hksnd : ks.Nodup := (List.nodup_cons.mp hLnd).2
    rcases hlk : lookupChannel cm k with _ | l
    · have hstep : unsub_all c (k :: ks) cm = unsub_all c ks cm := by
        simp [unsub_all, cm_unsubscribe, hlk]
      rw [hstep]
      refine ih cm hnd hksnd hcnt ?_ ?_
      · intro p hp hcp
        rcases List.mem_cons.mp (hcov p hp hcp) with h | h
        · obtain ⟨l₀, hl₀⟩ := lookupChannel_of_mem hp
          rw [h] at hl₀
          rw [hl₀] at hlk
          exact absurd hlk (by simp)
        · exact h
      · intro k' hk' l₀ hl₀
        exact hin k' (List.mem_cons_of_mem _ hk') l₀ hl₀
    · have hcl : c ∈ l := hin k (List.mem_cons_self _ _) l hlk
      have hunsub : chan_unsubscribe l c = .ok (l.erase c) := by
        simp [chan_unsubscribe, hcl]
      have hcount : l.count c ≤ 1 := hcnt (k, l) (mem_of_lookupChannel hlk)
      have hpos : 0 < l.count c := List.count_pos_iff_mem.mpr hcl
      have hcz : (l.erase c).count c = 0 := by
        rw [List.count_erase_self]
        omega
      have hnotin : c ∉ l.erase c := List.count_eq_zero.mp hcz
      by_cases hlen : (l.erase c).length = 0
      · have hstep : unsub_all c (k :: ks) cm =
            unsub_all c ks (cm.filter (fun p => !decide (p.1 = k))) := by
          simp [unsub_all, cm_unsubscribe, hlk, hunsub, hlen]
        rw [hstep]
        refine ih _ ?_ hksnd ?_ ?_ ?_
        · exact List.Nodup.sublist (List.Sublist.map _ (List.filter_sublist _)) hnd
        · intro p hp
          exact hcnt p (List.mem_filter.mp hp).1
        · intro p hp hcp
          obtain ⟨hpcm, hpf⟩ := List.mem_filter.mp hp
          have hne : ¬p.1 = k := by simpa using hpf
          rcases List.mem_cons.mp (hcov p hpcm hcp) with h | h
          · exact absurd h hne
          · exact h
        · intro k' hk' l₀ hl₀
          have hne : k' ≠ k := fun he => hknotks (he ▸ hk')
          rw [lookupChannel_filter_ne hne] at hl₀
          exact hin k' (List.mem_cons_of_mem _ hk') l₀ hl₀
      · have hstep : unsub_all c (k :: ks) cm =
            unsub_all c ks (cm.map (fun p => if p.1 = k then (p.1, l.erase c) else p)) := by
          simp [unsub_all, cm_unsubscribe, hlk, hunsub, hlen]
        rw [hstep]
        refine ih _ ?_ hksnd ?_ ?_ ?_
        · rw [mapEntry_keys]
          exact hnd
        · intro p hp
          rcases mem_mapEntry hp with ⟨-, h2⟩ | ⟨hpm, -⟩
          · rw [h2, hcz]
            omega
          · exact hcnt p hpm
        · intro p hp hcp
          rcases mem_mapEntry hp with ⟨-, h2⟩ | ⟨hpm, hpk⟩
          · rw [h2] at hcp
            exact absurd hcp hnotin
          · rcases List.mem_cons.mp (hcov p hpm hcp) with h | h
            · exact absurd h hpk
            · exact h
        · intro k' hk' l₀ hl₀
          have hne : k' ≠ k := fun he => hknotks (he ▸ hk')
          rw [lookupChannel_mapEntry_ne hne] at hl₀
          exact hin k' (List.mem_cons_of_mem _ hk') l₀ hl₀

theorem lookupChannel_mem_nodup {cm : ChannelMap} (hnd : (cm.map Prod.fst).Nodup)
    {p : HKey × List Nat} (hp : p ∈ cm) : lookupChannel cm p.1 = some p.2 := by
  induction cm with
  | nil => exact absurd hp (List.not_mem_nil _)
  | cons q tl ih =>
    have hnd' : q.1 ∉ tl.map Prod.fst ∧ (tl.map Prod.fst).Nodup := by
      simpa [List.nodup_cons] using hnd
    rcases List.mem_cons.mp hp with h | h
    · rw [h]
      simp [lookupChannel]
    · have hne : ¬q.1 = p.1 :=
        fun he => hnd'.1 (he ▸ List.mem_map_of_mem Prod.fst h)
      simp [lookupChannel, hne, ih hnd'.2 h]

/-- Counterexample to C6 as stated: session 1 subscribes twice to the
same channel (duplicates are appended), and `_remove_client`'s cleanup
unsubscribes only the first occurrence per subscribed channel — session
1 is still in the channel's subscriber list afterwards. -/
theorem remove_client_leaves_duplicate :
    cm_subscribe (cm_subscribe [] (HKey.str "ch".data) 1) (HKey.str "ch".data) 1 =
      [(HKey.str "ch".data, [1, 1])] ∧
    remove_client_channels [(HKey.str "ch".data, [1, 1])] 1 =
      .ok [(HKey.str "ch".data, [1])] ∧
    (1 : Nat) ∈ ([1] : List Nat) :=
  ⟨rfl, rfl, by decide⟩

/-- C6 (amended): `_remove_client` removes the first occurrence of the
session from each channel that contains it; whenever no channel holds
the session more than once (in particular for any client that never
double-subscribed a channel), the cleanup succeeds and the session
appears in no channel's subscriber list afterwards. -/
theorem remove_client_channels_clean (cm : ChannelMap) (c : Nat)
    (hnd : (cm.map Prod.fst).Nodup) (hcnt : ∀ p ∈ cm, p.2.count c ≤ 1) :
    ∃ cm', remove_client_channels cm c = .ok cm' ∧ ∀ p ∈ cm', c ∉ p.2 := by
  refine unsub_all_clean c (subscribed_channels cm c) cm hnd ?_ hcnt ?_ ?_
  · exact List.Nodup.sublist (List.Sublist.map _ (List.filter_sublist _)) hnd
  · intro p hp hcp
    exact List.mem_map.mpr ⟨p, List.mem_filter.mpr ⟨hp, by simpa using hcp⟩, rfl⟩
  · intro k hk l hl
    obtain ⟨p, hpf, hpk⟩ := List.mem_map.mp hk
    obtain ⟨hpm, hpc⟩ := List.mem_filter.mp hpf
    have hcp : c ∈ p.2 := by simpa using hpc
    have hlp := lookupChannel_mem_nodup hnd hpm
    rw [hpk, hl] at hlp
    injection hlp with h
    rw [h]
    exact hcp

/-- Witness for the amended C6: a client subscribed (once per channel)
to two channels is removed from both. -/
theorem remove_client_channels_clean_witness :
    ∃ cm', remove_client_channels
        [(HKey.str "ch".data, [1]), (HKey.int 5, [2, 1])] 1 = .ok cm' ∧
      ∀ p ∈ cm', 1 ∉ p.2 :=
  remove_client_channels_clean _ 1 (by decide) (by decide)
